import Mathlib

/-!
Shallow embedding of the vehicle-allocation core of the Digital Logistics
System (`select_vehicle` in `main.py`), together with proofs about it.

Python floats are modelled as rationals (the inputs are decimal literals and
all arithmetic performed is exact on them), Python ints as integers, CSV rows
as structures.  A Python `ZeroDivisionError` is modelled by returning
`Except.error`.
-/

namespace DLS

/-- One catalog item row, as read from the item database:
`{'ID': …, 'Weight': …, 'Type': …}` (the price field plays no role in
allocation and is omitted). -/
structure Item where
  id : String
  weight : ℚ
  itemType : String
  deriving Repr, DecidableEq

/-- One vehicle row, as read from the vehicle database. -/
structure VehicleData where
  vid : String
  vtype : String
  maxWeight : ℚ
  maxItems : ℤ
  remWeight : ℚ
  remItems : ℤ
  status : String
  deriving Repr, DecidableEq

/-- One request line `{'Item ID': …, 'Quantity': …}`; the allocator mutates
`qty` in place. -/
structure Line where
  itemId : String
  qty : ℤ
  deriving Repr, DecidableEq

/-- The `update_data` dictionary appended to `updates` and written to the
vehicle database each time some units are loaded. -/
structure UpdateData where
  vid : String
  vtype : String
  status : String
  remWeight : ℚ
  remItems : ℤ
  deriving Repr, DecidableEq

/-- Bookkeeping record of one load event: which vehicle received how many
units of which item.  The Python code prints this information; we keep it so
that invariants about individual assignments can be stated. -/
structure Assign where
  vid : String
  vtype : String
  itemId : String
  itemType : String
  units : ℤ
  unitWeight : ℚ
  deriving Repr, DecidableEq

/-- Python `int(x)`: truncation toward zero. -/
def pytrunc (q : ℚ) : ℤ := if 0 ≤ q then ⌊q⌋ else -⌊-q⌋

/-- `next((i for i in items if i['ID'] == item_id), None)`. -/
def findItem (items : List Item) (iid : String) : Option Item :=
  items.find? (fun i => i.id == iid)

/-- The mutable numeric state while one vehicle is being filled:
the order-level running counters `remaining_weight` / `remaining_items`
and the vehicle-level `remaining_weight_capacity` /
`remaining_item_capacity`. -/
structure PassState where
  rw : ℚ
  ri : ℤ
  rwc : ℚ
  ric : ℤ
  deriving Repr, DecidableEq

/-- `min(quantity, max_items_by_capacity, int(max_weight_by_capacity / item_weight))`
with `max_items_by_capacity = min(remaining_items, remaining_item_capacity)`
and `max_weight_by_capacity = min(remaining_weight, remaining_weight_capacity)`. -/
def loadableItems (st : PassState) (qty : ℤ) (w : ℚ) : ℤ :=
  min qty (min (min st.ri st.ric) (pytrunc (min st.rw st.rwc / w)))

/-- Process one request line against the current vehicle: the body of the
inner `for item_data in items_ids_and_quantities` loop.  Returns the new
numeric state, the (possibly decremented) line, and the update / assignment
records emitted (zero or one of each).  Dividing by a zero item weight is a
`ZeroDivisionError` in the source. -/
def processLine (items : List Item) (v : VehicleData) (st : PassState)
    (l : Line) : Except String (PassState × Line × List UpdateData × List Assign) :=
  match findItem items l.itemId with
  | none => .ok (st, l, [], [])
  | some item =>
    if v.vtype = "Bike" ∧ item.itemType = "fragile" then .ok (st, l, [], [])
    else if item.weight = 0 then .error "ZeroDivisionError"
    else
      let n := loadableItems st l.qty item.weight
      if 0 < n then
        let lw := n * item.weight
        let st2 : PassState := ⟨st.rw - lw, st.ri - n, st.rwc - lw, st.ric - n⟩
        .ok (st2, ⟨l.itemId, l.qty - n⟩,
             [⟨v.vid, v.vtype, "in_use", st2.rwc, st2.ric⟩],
             [⟨v.vid, v.vtype, l.itemId, item.itemType, n, item.weight⟩])
      else .ok (st, l, [], [])

/-- Run the whole inner loop: process every request line, in order, against
one vehicle. -/
def processLines (items : List Item) (v : VehicleData) :
    PassState → List Line → Except String (PassState × List Line × List UpdateData × List Assign)
  | st, [] => .ok (st, [], [], [])
  | st, l :: ls =>
    match processLine items v st l with
    | .error e => .error e
    | .ok (st1, l1, us1, as1) =>
      match processLines items v st1 ls with
      | .error e => .error e
      | .ok (st2, ls2, us2, as2) => .ok (st2, l1 :: ls2, us1 ++ us2, as1 ++ as2)

/-- The vehicle row after its pass: untouched if no update was emitted for
it, otherwise carrying the capacities of the last database update (which are
the end-of-pass capacities) and status `in_use`. -/
def applyPass (v : VehicleData) (st : PassState) (us : List UpdateData) : VehicleData :=
  if us.isEmpty then v
  else { v with remWeight := st.rwc, remItems := st.ric, status := "in_use" }

/-- The outer `for vehicle_data in vehicles` loop.  Returns the final order
counters, the final request lines, the final vehicle rows (in processing
order), and the accumulated update and assignment records. -/
def processVehicles (items : List Item) :
    ℚ → ℤ → List Line → List VehicleData →
    Except String (ℚ × ℤ × List Line × List VehicleData × List UpdateData × List Assign)
  | rw, ri, lines, [] => .ok (rw, ri, lines, [], [], [])
  | rw, ri, lines, v :: vs =>
    if rw ≤ 0 ∧ ri ≤ 0 then
      -- `break`: the remaining vehicles are left untouched
      .ok (rw, ri, lines, v :: vs, [], [])
    else if v.remWeight ≤ 0 ∨ v.remItems ≤ 0 ∨ v.status = "in_use" then
      -- `continue`: skip full or in-use vehicles
      match processVehicles items rw ri lines vs with
      | .error e => .error e
      | .ok (rw3, ri3, ls3, vs3, us, asg) => .ok (rw3, ri3, ls3, v :: vs3, us, asg)
    else
      match processLines items v ⟨rw, ri, v.remWeight, v.remItems⟩ lines with
      | .error e => .error e
      | .ok (st2, ls2, us1, as1) =>
        match processVehicles items st2.rw st2.ri ls2 vs with
        | .error e => .error e
        | .ok (rw3, ri3, ls3, vs3, us2, as2) =>
          .ok (rw3, ri3, ls3, applyPass v st2 us1 :: vs3, us1 ++ us2, as1 ++ as2)

/-- Sort key of `vehicles.sort(key=lambda v: (int(v['Max Capacity (Item Count)']),
float(v['Max Capacity (Weight)'])))`: lexicographic on (max item capacity,
max weight capacity). -/
def vehicleKeyLE (a b : VehicleData) : Prop :=
  a.maxItems < b.maxItems ∨ (a.maxItems = b.maxItems ∧ a.maxWeight ≤ b.maxWeight)

instance : DecidableRel vehicleKeyLE := fun a b => by
  unfold vehicleKeyLE; infer_instance

instance : IsTotal VehicleData vehicleKeyLE where
  total a b := by
    unfold vehicleKeyLE
    rcases lt_trichotomy a.maxItems b.maxItems with h | h | h
    · exact Or.inl (Or.inl h)
    · rcases le_total a.maxWeight b.maxWeight with hw | hw
      · exact Or.inl (Or.inr ⟨h, hw⟩)
      · exact Or.inr (Or.inr ⟨h.symm, hw⟩)
    · exact Or.inr (Or.inl h)

instance : IsTrans VehicleData vehicleKeyLE where
  trans a b c hab hbc := by
    unfold vehicleKeyLE at *
    rcases hab with h1 | ⟨h1, h1w⟩
    · rcases hbc with h2 | ⟨h2, _⟩
      · exact Or.inl (h1.trans h2)
      · exact Or.inl (h2 ▸ h1)
    · rcases hbc with h2 | ⟨h2, h2w⟩
      · exact Or.inl (h1 ▸ h2)
      · exact Or.inr ⟨h1.trans h2, h1w.trans h2w⟩

/-- The stable ascending sort performed on the fleet snapshot before the
outer loop. -/
def sortVehicles (vs : List VehicleData) : List VehicleData :=
  List.insertionSort vehicleKeyLE vs

/-- Everything observable about one run of `select_vehicle`: the returned
`updates` list, the individual assignments, the final vehicle database rows,
the final running counters, the final (mutated) request lines, and whether
the "Not enough vehicle capacity" warning was printed. -/
structure AllocResult where
  updates : List UpdateData
  asg : List Assign
  finalVehicles : List VehicleData
  remainingWeight : ℚ
  remainingItems : ℤ
  finalLines : List Line
  warning : Bool
  deriving Repr, DecidableEq

/-- Full semantics of `select_vehicle(total_weight, item_count,
items_ids_and_quantities)` against fleet snapshot `vehicles` and catalog
`items`. -/
def selectVehicleRun (totalWeight : ℚ) (itemCount : ℤ) (lines : List Line)
    (vehicles : List VehicleData) (items : List Item) : Except String AllocResult :=
  match processVehicles items totalWeight itemCount lines (sortVehicles vehicles) with
  | .error e => .error e
  | .ok (rw, ri, ls, vs, us, asg) =>
    .ok ⟨us, asg, vs, rw, ri, ls, decide (0 < ri)⟩

/-- The value the Python function actually returns: just the list of update
records. -/
def select_vehicle (totalWeight : ℚ) (itemCount : ℤ) (lines : List Line)
    (vehicles : List VehicleData) (items : List Item) : Except String (List UpdateData) :=
  (selectVehicleRun totalWeight itemCount lines vehicles items).map (fun r => r.updates)

/-- Unit weight an item id resolves to in the catalog (0 when unresolvable;
only used to state conservation, where unresolvable lines are never
consumed). -/
def weightOf (items : List Item) (iid : String) : ℚ :=
  (findItem items iid).elim 0 (fun i => i.weight)

/-- Total weight consumed from the request lines: pointwise quantity drop
times unit weight. -/
def consumedSum (items : List Item) (ls0 ls1 : List Line) : ℚ :=
  ((ls0.zip ls1).map (fun p => ((p.1.qty - p.2.qty : ℤ) : ℚ) * weightOf items p.1.itemId)).sum

/-- Total weight-capacity decrement applied across a fleet, pointwise
between the before and after rows. -/
def vehDecSum (vs0 vs1 : List VehicleData) : ℚ :=
  ((vs0.zip vs1).map (fun p => p.1.remWeight - p.2.remWeight)).sum

/-- Total weight carried by a list of assignments. -/
def asgWeight (asg : List Assign) : ℚ :=
  (asg.map (fun a => (a.units : ℚ) * a.unitWeight)).sum

/-- The capacity invariant of the spec for one vehicle row. -/
def capacityOK (v : VehicleData) : Prop :=
  0 ≤ v.remWeight ∧ v.remWeight ≤ v.maxWeight ∧
    0 ≤ v.remItems ∧ v.remItems ≤ v.maxItems

instance (v : VehicleData) : Decidable (capacityOK v) := by
  unfold capacityOK; infer_instance

/-- The skip test of the outer loop, as a predicate on the row: a vehicle is
considered only when both remaining capacities are positive and it is not
`in_use`. -/
def eligible (v : VehicleData) : Bool :=
  !(decide (v.remWeight ≤ 0) || decide (v.remItems ≤ 0) || (v.status == "in_use"))

/-! ### Lemmas about one line step -/

theorem pytrunc_eq_floor {q : ℚ} (h : 0 ≤ q) : pytrunc q = ⌊q⌋ := by
  unfold pytrunc; exact if_pos h

theorem processLine_ok_elim {items : List Item} {v : VehicleData} {st : PassState}
    {l : Line} {out : PassState × Line × List UpdateData × List Assign}
    (h : processLine items v st l = .ok out) :
    out = (st, l, [], []) ∨
    ∃ it, findItem items l.itemId = some it ∧
      ¬(v.vtype = "Bike" ∧ it.itemType = "fragile") ∧ it.weight ≠ 0 ∧
      0 < loadableItems st l.qty it.weight ∧
      out = (⟨st.rw - loadableItems st l.qty it.weight * it.weight,
              st.ri - loadableItems st l.qty it.weight,
              st.rwc - loadableItems st l.qty it.weight * it.weight,
              st.ric - loadableItems st l.qty it.weight⟩,
             ⟨l.itemId, l.qty - loadableItems st l.qty it.weight⟩,
             [⟨v.vid, v.vtype, "in_use",
               st.rwc - loadableItems st l.qty it.weight * it.weight,
               st.ric - loadableItems st l.qty it.weight⟩],
             [⟨v.vid, v.vtype, l.itemId, it.itemType,
               loadableItems st l.qty it.weight, it.weight⟩]) := by
  cases hf : findItem items l.itemId with
  | none =>
    simp only [processLine, hf] at h
    exact Or.inl (Except.ok.inj h).symm
  | some it =>
    simp only [processLine, hf] at h
    split_ifs at h with hbf hw hn
    · exact Or.inl (Except.ok.inj h).symm
    · exact Or.inr ⟨it, rfl, hbf, hw, hn, (Except.ok.inj h).symm⟩
    · exact Or.inl (Except.ok.inj h).symm

theorem processLine_error_elim {items : List Item} {v : VehicleData} {st : PassState}
    {l : Line} {e : String} (h : processLine items v st l = .error e) :
    e = "ZeroDivisionError" ∧
    ∃ it, findItem items l.itemId = some it ∧
      ¬(v.vtype = "Bike" ∧ it.itemType = "fragile") ∧ it.weight = 0 := by
  cases hf : findItem items l.itemId with
  | none =>
    simp only [processLine, hf] at h
    exact Except.noConfusion h
  | some it =>
    simp only [processLine, hf] at h
    split_ifs at h with hbf hw hn
    all_goals
      first
      | exact Except.noConfusion h
      | exact ⟨(Except.error.inj h).symm, it, rfl, hbf, hw⟩

theorem processLine_total {items : List Item} {v : VehicleData} {st : PassState}
    {l : Line} (hpos : ∀ it, findItem items l.itemId = some it → 0 < it.weight) :
    ∃ out, processLine items v st l = .ok out := by
  cases h : processLine items v st l with
  | ok out => exact ⟨out, rfl⟩
  | error e =>
    obtain ⟨-, it, hf, -, hw⟩ := processLine_error_elim h
    exact absurd (hpos it hf) (by rw [hw]; exact lt_irrefl 0)

/-- When units actually get loaded, the loaded count is bounded by every
term of the `min` and the loaded weight fits under both weight bounds. -/
theorem loadable_facts {st : PassState} {qty : ℤ} {w : ℚ} (hw : 0 < w)
    (hn : 0 < loadableItems st qty w) :
    loadableItems st qty w ≤ qty ∧ loadableItems st qty w ≤ st.ri ∧
    loadableItems st qty w ≤ st.ric ∧
    (loadableItems st qty w : ℚ) * w ≤ st.rw ∧
    (loadableItems st qty w : ℚ) * w ≤ st.rwc := by
  have h1 : loadableItems st qty w ≤ qty := min_le_left _ _
  have h2 : loadableItems st qty w ≤
      min (min st.ri st.ric) (pytrunc (min st.rw st.rwc / w)) := min_le_right _ _
  have hri : loadableItems st qty w ≤ st.ri :=
    (h2.trans (min_le_left _ _)).trans (min_le_left _ _)
  have hric : loadableItems st qty w ≤ st.ric :=
    (h2.trans (min_le_left _ _)).trans (min_le_right _ _)
  have hpy : loadableItems st qty w ≤ pytrunc (min st.rw st.rwc / w) :=
    h2.trans (min_le_right _ _)
  have hq : 0 ≤ min st.rw st.rwc / w := by
    by_contra hneg
    push_neg at hneg
    have hle : pytrunc (min st.rw st.rwc / w) ≤ 0 := by
      unfold pytrunc
      rw [if_neg (not_le.mpr hneg)]
      have h0 : (0 : ℤ) ≤ ⌊-(min st.rw st.rwc / w)⌋ :=
        Int.floor_nonneg.mpr (by linarith)
      linarith
    exact absurd (hn.trans_le hpy) (not_lt.mpr hle)
  have hnq : (loadableItems st qty w : ℚ) ≤ min st.rw st.rwc / w :=
    Int.le_floor.mp (by rwa [pytrunc_eq_floor hq] at hpy)
  have hmul : (loadableItems st qty w : ℚ) * w ≤ min st.rw st.rwc :=
    (le_div_iff₀ hw).mp hnq
  exact ⟨h1, hri, hric, hmul.trans (min_le_left _ _), hmul.trans (min_le_right _ _)⟩

/-! ### Lemmas about one vehicle pass -/

theorem processLines_shape {items : List Item} {v : VehicleData} :
    ∀ {st : PassState} {lines : List Line} {st2 ls2 us asg},
    processLines items v st lines = .ok (st2, ls2, us, asg) →
    ls2.map (fun l => l.itemId) = lines.map (fun l => l.itemId) ∧
    (us = [] ↔ asg = []) ∧
    (us = [] → st2 = st ∧ ls2 = lines) ∧
    us.length = asg.length := by
  intro st lines
  induction lines generalizing st with
  | nil =>
    intro st2 ls2 us asg h
    simp only [processLines, Except.ok.injEq, Prod.mk.injEq] at h
    obtain ⟨rfl, rfl, rfl, rfl⟩ := h
    simp
  | cons l ls ih =>
    intro st2 ls2 us asg h
    simp only [processLines] at h
    cases h1 : processLine items v st l with
    | error e => simp only [h1] at h; exact Except.noConfusion h
    | ok out1 =>
      obtain ⟨st1, l1, us1, as1⟩ := out1
      simp only [h1] at h
      cases h2 : processLines items v st1 ls with
      | error e => simp only [h2] at h; exact Except.noConfusion h
      | ok out2 =>
        obtain ⟨st2x, ls2x, us2, as2⟩ := out2
        simp only [h2] at h
        simp only [Except.ok.injEq, Prod.mk.injEq] at h
        obtain ⟨rfl, rfl, rfl, rfl⟩ := h
        obtain ⟨sh1, sh2, sh3, sh4⟩ := ih h2
        rcases processLine_ok_elim h1 with he | ⟨it, hf, hbf, hwz, hn, he⟩
        · simp only [Prod.mk.injEq] at he
          obtain ⟨rfl, rfl, rfl, rfl⟩ := he
          refine ⟨by simp [sh1], by simpa using sh2, ?_, by simpa using sh4⟩
          intro hnil
          simp only [List.nil_append] at hnil
          obtain ⟨rfl, rfl⟩ := sh3 hnil
          exact ⟨rfl, rfl⟩
        · simp only [Prod.mk.injEq] at he
          obtain ⟨rfl, rfl, rfl, rfl⟩ := he
          refine ⟨by simp [sh1], by simp, by intro hnil; simp at hnil, by simp [sh4]⟩

theorem weightOf_eq {items : List Item} {iid : String} {it : Item}
    (hf : findItem items iid = some it) : weightOf items iid = it.weight := by
  simp [weightOf, hf]

theorem processLines_records {items : List Item} {v : VehicleData} :
    ∀ {st : PassState} {lines : List Line} {st2 ls2 us asg},
    processLines items v st lines = .ok (st2, ls2, us, asg) →
    ∀ u ∈ us, u.vid = v.vid ∧ u.vtype = v.vtype ∧ u.status = "in_use" := by
  intro st lines
  induction lines generalizing st with
  | nil =>
    intro st2 ls2 us asg h
    simp only [processLines, Except.ok.injEq, Prod.mk.injEq] at h
    obtain ⟨rfl, rfl, rfl, rfl⟩ := h
    simp
  | cons l ls ih =>
    intro st2 ls2 us asg h
    simp only [processLines] at h
    cases h1 : processLine items v st l with
    | error e => simp only [h1] at h; exact Except.noConfusion h
    | ok out1 =>
      obtain ⟨st1, l1, us1, as1⟩ := out1
      simp only [h1] at h
      cases h2 : processLines items v st1 ls with
      | error e => simp only [h2] at h; exact Except.noConfusion h
      | ok out2 =>
        obtain ⟨st2x, ls2x, us2, as2⟩ := out2
        simp only [h2] at h
        simp only [Except.ok.injEq, Prod.mk.injEq] at h
        obtain ⟨rfl, rfl, rfl, rfl⟩ := h
        rcases processLine_ok_elim h1 with he | ⟨it, hf, hbf, hwz, hn, he⟩ <;>
          simp only [Prod.mk.injEq] at he <;>
          obtain ⟨rfl, rfl, rfl, rfl⟩ := he
        · simpa using ih h2
        · intro u hu
          rcases List.mem_cons.mp (by simpa using hu) with rfl | hu2
          · exact ⟨rfl, rfl, rfl⟩
          · exact ih h2 u hu2

theorem processLines_asg {items : List Item} {v : VehicleData} :
    ∀ {st : PassState} {lines : List Line} {st2 ls2 us asg},
    processLines items v st lines = .ok (st2, ls2, us, asg) →
    ∀ a ∈ asg, a.vid = v.vid ∧ a.vtype = v.vtype ∧ 0 < a.units ∧
      ¬(a.vtype = "Bike" ∧ a.itemType = "fragile") ∧
      ∃ it, findItem items a.itemId = some it ∧
        a.itemType = it.itemType ∧ a.unitWeight = it.weight := by
  intro st lines
  induction lines generalizing st with
  | nil =>
    intro st2 ls2 us asg h
    simp only [processLines, Except.ok.injEq, Prod.mk.injEq] at h
    obtain ⟨rfl, rfl, rfl, rfl⟩ := h
    simp
  | cons l ls ih =>
    intro st2 ls2 us asg h
    simp only [processLines] at h
    cases h1 : processLine items v st l with
    | error e => simp only [h1] at h; exact Except.noConfusion h
    | ok out1 =>
      obtain ⟨st1, l1, us1, as1⟩ := out1
      simp only [h1] at h
      cases h2 : processLines items v st1 ls with
      | error e => simp only [h2] at h; exact Except.noConfusion h
      | ok out2 =>
        obtain ⟨st2x, ls2x, us2, as2⟩ := out2
        simp only [h2] at h
        simp only [Except.ok.injEq, Prod.mk.injEq] at h
        obtain ⟨rfl, rfl, rfl, rfl⟩ := h
        rcases processLine_ok_elim h1 with he | ⟨it, hf, hbf, hwz, hn, he⟩ <;>
          simp only [Prod.mk.injEq] at he <;>
          obtain ⟨rfl, rfl, rfl, rfl⟩ := he
        · simpa using ih h2
        · intro a ha
          rcases List.mem_cons.mp (by simpa using ha) with rfl | ha2
          · exact ⟨rfl, rfl, hn, hbf, it, hf, rfl, rfl⟩
          · exact ih h2 a ha2

theorem processLines_pairs {items : List Item} {v : VehicleData} :
    ∀ {st : PassState} {lines : List Line} {st2 ls2 us asg},
    processLines items v st lines = .ok (st2, ls2, us, asg) →
    ∀ p ∈ us.zip asg, p.1.vid = p.2.vid ∧ p.1.vtype = p.2.vtype ∧ 0 < p.2.units := by
  intro st lines
  induction lines generalizing st with
  | nil =>
    intro st2 ls2 us asg h
    simp only [processLines, Except.ok.injEq, Prod.mk.injEq] at h
    obtain ⟨rfl, rfl, rfl, rfl⟩ := h
    simp
  | cons l ls ih =>
    intro st2 ls2 us asg h
    simp only [processLines] at h
    cases h1 : processLine items v st l with
    | error e => simp only [h1] at h; exact Except.noConfusion h
    | ok out1 =>
      obtain ⟨st1, l1, us1, as1⟩ := out1
      simp only [h1] at h
      cases h2 : processLines items v st1 ls with
      | error e => simp only [h2] at h; exact Except.noConfusion h
      | ok out2 =>
        obtain ⟨st2x, ls2x, us2, as2⟩ := out2
        simp only [h2] at h
        simp only [Except.ok.injEq, Prod.mk.injEq] at h
        obtain ⟨rfl, rfl, rfl, rfl⟩ := h
        rcases processLine_ok_elim h1 with he | ⟨it, hf, hbf, hwz, hn, he⟩ <;>
          simp only [Prod.mk.injEq] at he <;>
          obtain ⟨rfl, rfl, rfl, rfl⟩ := he
        · simpa using ih h2
        · intro p hp
          rcases List.mem_cons.mp (by simpa using hp) with rfl | hp2
          · exact ⟨rfl, rfl, hn⟩
          · exact ih h2 p hp2

theorem processLines_last {items : List Item} {v : VehicleData} :
    ∀ {st : PassState} {lines : List Line} {st2 ls2 us asg},
    processLines items v st lines = .ok (st2, ls2, us, asg) →
    us = [] ∨ ∃ u, us.getLast? = some u ∧ u.remWeight = st2.rwc ∧ u.remItems = st2.ric := by
  intro st lines
  induction lines generalizing st with
  | nil =>
    intro st2 ls2 us asg h
    simp only [processLines, Except.ok.injEq, Prod.mk.injEq] at h
    obtain ⟨rfl, rfl, rfl, rfl⟩ := h
    exact Or.inl rfl
  | cons l ls ih =>
    intro st2 ls2 us asg h
    simp only [processLines] at h
    cases h1 : processLine items v st l with
    | error e => simp only [h1] at h; exact Except.noConfusion h
    | ok out1 =>
      obtain ⟨st1, l1, us1, as1⟩ := out1
      simp only [h1] at h
      cases h2 : processLines items v st1 ls with
      | error e => simp only [h2] at h; exact Except.noConfusion h
      | ok out2 =>
        obtain ⟨st2x, ls2x, us2, as2⟩ := out2
        simp only [h2] at h
        simp only [Except.ok.injEq, Prod.mk.injEq] at h
        obtain ⟨rfl, rfl, rfl, rfl⟩ := h
        rcases processLine_ok_elim h1 with he | ⟨it, hf, hbf, hwz, hn, he⟩ <;>
          simp only [Prod.mk.injEq] at he <;>
          obtain ⟨rfl, rfl, rfl, rfl⟩ := he
        · simpa using ih h2
        · rcases ih h2 with rfl | ⟨u2, hg, hgw, hgi⟩
          · obtain ⟨rfl, -⟩ := (processLines_shape h2).2.2.1 rfl
            exact Or.inr ⟨⟨v.vid, v.vtype, "in_use",
              st.rwc - (loadableItems st l.qty it.weight : ℚ) * it.weight,
              st.ric - loadableItems st l.qty it.weight⟩, rfl, rfl, rfl⟩
          · have hne : us2 ≠ [] := by
              intro hnil; rw [hnil] at hg; exact Option.noConfusion hg
            refine Or.inr ⟨u2, ?_, hgw, hgi⟩
            rw [List.singleton_append, ← List.singleton_append,
              List.getLast?_append_of_ne_nil _ hne, hg]

theorem processLines_total {items : List Item} {v : VehicleData} :
    ∀ {st : PassState} {lines : List Line},
    (∀ l ∈ lines, ∀ it, findItem items l.itemId = some it → 0 < it.weight) →
    ∃ out, processLines items v st lines = .ok out := by
  intro st lines
  induction lines generalizing st with
  | nil => exact fun _ => ⟨_, rfl⟩
  | cons l ls ih =>
    intro hpos
    obtain ⟨out1, h1⟩ :=
      @processLine_total items v st l (hpos l (List.mem_cons_self l ls))
    obtain ⟨st1, l1, us1, as1⟩ := out1
    obtain ⟨out2, h2⟩ := @ih st1 (fun l2 hl2 => hpos l2 (List.mem_cons_of_mem _ hl2))
    obtain ⟨st2, ls2, us2, as2⟩ := out2
    exact ⟨(st2, l1 :: ls2, us1 ++ us2, as1 ++ as2), by simp only [processLines, h1, h2]⟩

theorem processLines_conserv {items : List Item} {v : VehicleData} :
    ∀ {st : PassState} {lines : List Line} {st2 ls2 us asg},
    processLines items v st lines = .ok (st2, ls2, us, asg) →
    st.rw - st2.rw = asgWeight asg ∧
    st.rwc - st2.rwc = asgWeight asg ∧
    st.ri - st2.ri = (asg.map (fun a => a.units)).sum ∧
    st.ric - st2.ric = (asg.map (fun a => a.units)).sum ∧
    consumedSum items lines ls2 = asgWeight asg := by
  intro st lines
  induction lines generalizing st with
  | nil =>
    intro st2 ls2 us asg h
    simp only [processLines, Except.ok.injEq, Prod.mk.injEq] at h
    obtain ⟨rfl, rfl, rfl, rfl⟩ := h
    simp [asgWeight, consumedSum]
  | cons l ls ih =>
    intro st2 ls2 us asg h
    simp only [processLines] at h
    cases h1 : processLine items v st l with
    | error e => simp only [h1] at h; exact Except.noConfusion h
    | ok out1 =>
      obtain ⟨st1, l1, us1, as1⟩ := out1
      simp only [h1] at h
      cases h2 : processLines items v st1 ls with
      | error e => simp only [h2] at h; exact Except.noConfusion h
      | ok out2 =>
        obtain ⟨st2x, ls2x, us2, as2⟩ := out2
        simp only [h2] at h
        simp only [Except.ok.injEq, Prod.mk.injEq] at h
        obtain ⟨rfl, rfl, rfl, rfl⟩ := h
        obtain ⟨c1, c2, c3, c4, c5⟩ := ih h2
        rcases processLine_ok_elim h1 with he | ⟨it, hf, hbf, hwz, hn, he⟩ <;>
          simp only [Prod.mk.injEq] at he <;>
          obtain ⟨rfl, rfl, rfl, rfl⟩ := he
        · refine ⟨by simpa using c1, by simpa using c2, by simpa using c3,
            by simpa using c4, ?_⟩
          simp only [List.nil_append]
          simpa [consumedSum] using c5
        · simp only at c1 c2 c3 c4
          have hwOf : weightOf items l.itemId = it.weight := weightOf_eq hf
          refine ⟨?_, ?_, ?_, ?_, ?_⟩
          · simp only [List.singleton_append, asgWeight, List.map_cons, List.sum_cons]
            simp only [asgWeight] at c1
            linarith
          · simp only [List.singleton_append, asgWeight, List.map_cons, List.sum_cons]
            simp only [asgWeight] at c2
            linarith
          · simp only [List.singleton_append, List.map_cons, List.sum_cons]
            omega
          · simp only [List.singleton_append, List.map_cons, List.sum_cons]
            omega
          · simp only [List.singleton_append, asgWeight, List.map_cons, List.sum_cons]
            simp only [consumedSum, List.zip_cons_cons, List.map_cons, List.sum_cons, hwOf]
            simp only [consumedSum, asgWeight] at c5
            have hsub : ((l.qty - (l.qty - loadableItems st l.qty it.weight) : ℤ) : ℚ) =
                (loadableItems st l.qty it.weight : ℚ) := by push_cast; ring
            rw [hsub, c5]

theorem processLines_bounds {items : List Item} {v : VehicleData}
    (hw : ∀ i ∈ items, 0 < i.weight) :
    ∀ {st : PassState} {lines : List Line} {st2 ls2 us asg},
    processLines items v st lines = .ok (st2, ls2, us, asg) →
    st2.rwc ≤ st.rwc ∧ st2.ric ≤ st.ric ∧
    (us ≠ [] → 0 ≤ st2.rwc ∧ 0 ≤ st2.ric) := by
  intro st lines
  induction lines generalizing st with
  | nil =>
    intro st2 ls2 us asg h
    simp only [processLines, Except.ok.injEq, Prod.mk.injEq] at h
    obtain ⟨rfl, rfl, rfl, rfl⟩ := h
    exact ⟨le_refl _, le_refl _, fun hne => absurd rfl hne⟩
  | cons l ls ih =>
    intro st2 ls2 us asg h
    simp only [processLines] at h
    cases h1 : processLine items v st l with
    | error e => simp only [h1] at h; exact Except.noConfusion h
    | ok out1 =>
      obtain ⟨st1, l1, us1, as1⟩ := out1
      simp only [h1] at h
      cases h2 : processLines items v st1 ls with
      | error e => simp only [h2] at h; exact Except.noConfusion h
      | ok out2 =>
        obtain ⟨st2x, ls2x, us2, as2⟩ := out2
        simp only [h2] at h
        simp only [Except.ok.injEq, Prod.mk.injEq] at h
        obtain ⟨rfl, rfl, rfl, rfl⟩ := h
        obtain ⟨b1, b2, b3⟩ := ih h2
        rcases processLine_ok_elim h1 with he | ⟨it, hf, hbf, hwz, hn, he⟩ <;>
          simp only [Prod.mk.injEq] at he <;>
          obtain ⟨rfl, rfl, rfl, rfl⟩ := he
        · exact ⟨b1, b2, by simpa using b3⟩
        · have hwpos : 0 < it.weight := hw it (List.mem_of_find?_eq_some hf)
          obtain ⟨-, -, hric, -, hrwc⟩ := loadable_facts hwpos hn
          have hlw : 0 < (loadableItems st l.qty it.weight : ℚ) * it.weight :=
            mul_pos (by exact_mod_cast hn) hwpos
          simp only at b1 b2 b3
          refine ⟨by linarith, by omega, fun _ => ?_⟩
          by_cases hus2 : us2 = []
          · subst hus2
            obtain ⟨rfl, -⟩ := (processLines_shape h2).2.2.1 rfl
            exact ⟨by simp only; linarith, by simp only; omega⟩
          · exact b3 hus2

/-! ### Small list facts used to assemble the outer loop -/

theorem zip_self_mem {α : Type} : ∀ {l : List α} {p : α × α}, p ∈ l.zip l → p.2 = p.1 := by
  intro l
  induction l with
  | nil => intro p hp; simp at hp
  | cons a t ih =>
    intro p hp
    rcases List.mem_cons.mp (by simpa using hp) with rfl | hp2
    · rfl
    · exact ih hp2

theorem mem_zip_exists_left {α β : Type} :
    ∀ {l1 : List α} {l2 : List β} {b : β}, l1.length = l2.length → b ∈ l2 →
    ∃ a, (a, b) ∈ l1.zip l2 := by
  intro l1
  induction l1 with
  | nil =>
    intro l2 b hlen hb
    cases l2 with
    | nil => simp at hb
    | cons c t => simp at hlen
  | cons a t ih =>
    intro l2 b hlen hb
    cases l2 with
    | nil => simp at hb
    | cons c t2 =>
      rcases List.mem_cons.mp hb with rfl | hb2
      · exact ⟨a, by simp⟩
      · obtain ⟨x, hx⟩ := ih (by simpa using hlen) hb2
        exact ⟨x, List.mem_cons_of_mem _ hx⟩

theorem consumedSum_self {items : List Item} : ∀ {ls : List Line},
    consumedSum items ls ls = 0 := by
  intro ls
  induction ls with
  | nil => simp [consumedSum]
  | cons l t ih =>
    simp only [consumedSum, List.zip_cons_cons, List.map_cons, List.sum_cons]
    simp only [consumedSum] at ih
    rw [ih, sub_self, Int.cast_zero, zero_mul, zero_add]

theorem vehDecSum_self : ∀ {vs : List VehicleData}, vehDecSum vs vs = 0 := by
  intro vs
  induction vs with
  | nil => simp [vehDecSum]
  | cons v t ih =>
    simp only [vehDecSum, List.zip_cons_cons, List.map_cons, List.sum_cons] at *
    simp [ih]

theorem consumedSum_trans {items : List Item} :
    ∀ {ls0 ls1 ls2 : List Line},
    ls0.map (fun l => l.itemId) = ls1.map (fun l => l.itemId) →
    ls1.length = ls2.length →
    consumedSum items ls0 ls2 = consumedSum items ls0 ls1 + consumedSum items ls1 ls2 := by
  intro ls0
  induction ls0 with
  | nil =>
    intro ls1 ls2 hmap hlen
    cases ls1 with
    | nil => simp [consumedSum]
    | cons b t1 => simp at hmap
  | cons a t ih =>
    intro ls1 ls2 hmap hlen
    cases ls1 with
    | nil => simp at hmap
    | cons b t1 =>
      cases ls2 with
      | nil => simp at hlen
      | cons c t2 =>
        simp only [List.map_cons, List.cons.injEq] at hmap
        obtain ⟨hab, hmap'⟩ := hmap
        simp only [consumedSum, List.zip_cons_cons, List.map_cons, List.sum_cons]
        have := @ih t1 t2 hmap' (by simpa using hlen)
        simp only [consumedSum] at this
        rw [this, hab]
        push_cast
        ring

/-! ### Lemmas about the outer vehicle loop -/

theorem processVehicles_shape {items : List Item} :
    ∀ {vs : List VehicleData} {rw : ℚ} {ri : ℤ} {lines : List Line}
      {rw3 ri3 ls3 vs3 us asg},
    processVehicles items rw ri lines vs = .ok (rw3, ri3, ls3, vs3, us, asg) →
    ls3.map (fun l => l.itemId) = lines.map (fun l => l.itemId) ∧
    vs3.length = vs.length ∧ us.length = asg.length := by
  intro vs
  induction vs with
  | nil =>
    intro rw ri lines rw3 ri3 ls3 vs3 us asg h
    simp only [processVehicles, Except.ok.injEq, Prod.mk.injEq] at h
    obtain ⟨rfl, rfl, rfl, rfl, rfl, rfl⟩ := h
    simp
  | cons v vs ih =>
    intro rw ri lines rw3 ri3 ls3 vs3 us asg h
    simp only [processVehicles] at h
    split_ifs at h with hbreak hskip
    · simp only [Except.ok.injEq, Prod.mk.injEq] at h
      obtain ⟨rfl, rfl, rfl, rfl, rfl, rfl⟩ := h
      simp
    · cases h2 : processVehicles items rw ri lines vs with
      | error e => simp only [h2] at h; exact Except.noConfusion h
      | ok out2 =>
        obtain ⟨rwa, ria, lsa, vsa, usa, asga⟩ := out2
        simp only [h2] at h
        simp only [Except.ok.injEq, Prod.mk.injEq] at h
        obtain ⟨rfl, rfl, rfl, rfl, rfl, rfl⟩ := h
        obtain ⟨s1, s2, s3⟩ := ih h2
        exact ⟨s1, by simpa using s2, s3⟩
    · cases hp : processLines items v ⟨rw, ri, v.remWeight, v.remItems⟩ lines with
      | error e => simp only [hp] at h; exact Except.noConfusion h
      | ok outp =>
        obtain ⟨st2, ls2, us1, as1⟩ := outp
        simp only [hp] at h
        cases h2 : processVehicles items st2.rw st2.ri ls2 vs with
        | error e => simp only [h2] at h; exact Except.noConfusion h
        | ok out2 =>
          obtain ⟨rwa, ria, lsa, vsa, usa, asga⟩ := out2
          simp only [h2] at h
          simp only [Except.ok.injEq, Prod.mk.injEq] at h
          obtain ⟨rfl, rfl, rfl, rfl, rfl, rfl⟩ := h
          obtain ⟨p1, -, -, p4⟩ := processLines_shape hp
          obtain ⟨s1, s2, s3⟩ := ih h2
          refine ⟨s1.trans p1, by simpa using s2, ?_⟩
          simp only [List.length_append, p4, s3]

theorem processVehicles_vehicles {items : List Item} :
    ∀ {vs : List VehicleData} {rw : ℚ} {ri : ℤ} {lines : List Line}
      {rw3 ri3 ls3 vs3 us asg},
    processVehicles items rw ri lines vs = .ok (rw3, ri3, ls3, vs3, us, asg) →
    ∀ p ∈ vs.zip vs3, p.2 = p.1 ∨
      (p.2.vid = p.1.vid ∧ p.2.vtype = p.1.vtype ∧
       p.2.maxWeight = p.1.maxWeight ∧ p.2.maxItems = p.1.maxItems ∧
       p.2.status = "in_use" ∧ ¬(p.1.status = "in_use") ∧
       0 < p.1.remWeight ∧ 0 < p.1.remItems) := by
  intro vs
  induction vs with
  | nil =>
    intro rw ri lines rw3 ri3 ls3 vs3 us asg h
    simp only [processVehicles, Except.ok.injEq, Prod.mk.injEq] at h
    obtain ⟨rfl, rfl, rfl, rfl, rfl, rfl⟩ := h
    simp
  | cons v vs ih =>
    intro rw ri lines rw3 ri3 ls3 vs3 us asg h
    simp only [processVehicles] at h
    split_ifs at h with hbreak hskip
    · simp only [Except.ok.injEq, Prod.mk.injEq] at h
      obtain ⟨rfl, rfl, rfl, rfl, rfl, rfl⟩ := h
      exact fun p hp => Or.inl (zip_self_mem hp)
    · cases h2 : processVehicles items rw ri lines vs with
      | error e => simp only [h2] at h; exact Except.noConfusion h
      | ok out2 =>
        obtain ⟨rwa, ria, lsa, vsa, usa, asga⟩ := out2
        simp only [h2] at h
        simp only [Except.ok.injEq, Prod.mk.injEq] at h
        obtain ⟨rfl, rfl, rfl, rfl, rfl, rfl⟩ := h
        intro p hp
        rcases List.mem_cons.mp (by simpa using hp) with rfl | hp2
        · exact Or.inl rfl
        · exact ih h2 p hp2
    · cases hp : processLines items v ⟨rw, ri, v.remWeight, v.remItems⟩ lines with
      | error e => simp only [hp] at h; exact Except.noConfusion h
      | ok outp =>
        obtain ⟨st2, ls2, us1, as1⟩ := outp
        simp only [hp] at h
        cases h2 : processVehicles items st2.rw st2.ri ls2 vs with
        | error e => simp only [h2] at h; exact Except.noConfusion h
        | ok out2 =>
          obtain ⟨rwa, ria, lsa, vsa, usa, asga⟩ := out2
          simp only [h2] at h
          simp only [Except.ok.injEq, Prod.mk.injEq] at h
          obtain ⟨rfl, rfl, rfl, rfl, rfl, rfl⟩ := h
          push_neg at hskip
          obtain ⟨hwv, hiv, hsv⟩ := hskip
          intro p hp
          rcases List.mem_cons.mp (by simpa using hp) with rfl | hp2
          · by_cases hus : us1.isEmpty
            · exact Or.inl (by simp [applyPass, hus])
            · exact Or.inr ⟨by simp [applyPass, hus], by simp [applyPass, hus],
                by simp [applyPass, hus], by simp [applyPass, hus],
                by simp [applyPass, hus], hsv, hwv, hiv⟩
          · exact ih h2 p hp2

theorem processVehicles_records {items : List Item} :
    ∀ {vs : List VehicleData} {rw : ℚ} {ri : ℤ} {lines : List Line}
      {rw3 ri3 ls3 vs3 us asg},
    processVehicles items rw ri lines vs = .ok (rw3, ri3, ls3, vs3, us, asg) →
    ∀ u ∈ us, u.status = "in_use" ∧
      ∃ v0 ∈ vs, u.vid = v0.vid ∧ u.vtype = v0.vtype ∧
        ¬(v0.status = "in_use") ∧ 0 < v0.remWeight ∧ 0 < v0.remItems := by
  intro vs
  induction vs with
  | nil =>
    intro rw ri lines rw3 ri3 ls3 vs3 us asg h
    simp only [processVehicles, Except.ok.injEq, Prod.mk.injEq] at h
    obtain ⟨rfl, rfl, rfl, rfl, rfl, rfl⟩ := h
    simp
  | cons v vs ih =>
    intro rw ri lines rw3 ri3 ls3 vs3 us asg h
    simp only [processVehicles] at h
    split_ifs at h with hbreak hskip
    · simp only [Except.ok.injEq, Prod.mk.injEq] at h
      obtain ⟨rfl, rfl, rfl, rfl, rfl, rfl⟩ := h
      simp
    · cases h2 : processVehicles items rw ri lines vs with
      | error e => simp only [h2] at h; exact Except.noConfusion h
      | ok out2 =>
        obtain ⟨rwa, ria, lsa, vsa, usa, asga⟩ := out2
        simp only [h2] at h
        simp only [Except.ok.injEq, Prod.mk.injEq] at h
        obtain ⟨rfl, rfl, rfl, rfl, rfl, rfl⟩ := h
        intro u hu
        obtain ⟨hs, v0, hv0, hrest⟩ := ih h2 u hu
        exact ⟨hs, v0, List.mem_cons_of_mem _ hv0, hrest⟩
    · cases hp : processLines items v ⟨rw, ri, v.remWeight, v.remItems⟩ lines with
      | error e => simp only [hp] at h; exact Except.noConfusion h
      | ok outp =>
        obtain ⟨st2, ls2, us1, as1⟩ := outp
        simp only [hp] at h
        cases h2 : processVehicles items st2.rw st2.ri ls2 vs with
        | error e => simp only [h2] at h; exact Except.noConfusion h
        | ok out2 =>
          obtain ⟨rwa, ria, lsa, vsa, usa, asga⟩ := out2
          simp only [h2] at h
          simp only [Except.ok.injEq, Prod.mk.injEq] at h
          obtain ⟨rfl, rfl, rfl, rfl, rfl, rfl⟩ := h
          push_neg at hskip
          obtain ⟨hwv, hiv, hsv⟩ := hskip
          intro u hu
          rcases List.mem_append.mp hu with hu1 | hu2
          · obtain ⟨hvid, hvt, hs⟩ := processLines_records hp u hu1
            exact ⟨hs, v, List.mem_cons_self _ _, hvid, hvt, hsv, hwv, hiv⟩
          · obtain ⟨hs, v0, hv0, hrest⟩ := ih h2 u hu2
            exact ⟨hs, v0, List.mem_cons_of_mem _ hv0, hrest⟩

theorem processVehicles_asg {items : List Item} :
    ∀ {vs : List VehicleData} {rw : ℚ} {ri : ℤ} {lines : List Line}
      {rw3 ri3 ls3 vs3 us asg},
    processVehicles items rw ri lines vs = .ok (rw3, ri3, ls3, vs3, us, asg) →
    ∀ a ∈ asg, 0 < a.units ∧ ¬(a.vtype = "Bike" ∧ a.itemType = "fragile") ∧
      (∃ it, findItem items a.itemId = some it ∧
        a.itemType = it.itemType ∧ a.unitWeight = it.weight) ∧
      ∃ v0 ∈ vs, a.vid = v0.vid ∧ a.vtype = v0.vtype ∧
        ¬(v0.status = "in_use") ∧ 0 < v0.remWeight ∧ 0 < v0.remItems := by
  intro vs
  induction vs with
  | nil =>
    intro rw ri lines rw3 ri3 ls3 vs3 us asg h
    simp only [processVehicles, Except.ok.injEq, Prod.mk.injEq] at h
    obtain ⟨rfl, rfl, rfl, rfl, rfl, rfl⟩ := h
    simp
  | cons v vs ih =>
    intro rw ri lines rw3 ri3 ls3 vs3 us asg h
    simp only [processVehicles] at h
    split_ifs at h with hbreak hskip
    · simp only [Except.ok.injEq, Prod.mk.injEq] at h
      obtain ⟨rfl, rfl, rfl, rfl, rfl, rfl⟩ := h
      simp
    · cases h2 : processVehicles items rw ri lines vs with
      | error e => simp only [h2] at h; exact Except.noConfusion h
      | ok out2 =>
        obtain ⟨rwa, ria, lsa, vsa, usa, asga⟩ := out2
        simp only [h2] at h
        simp only [Except.ok.injEq, Prod.mk.injEq] at h
        obtain ⟨rfl, rfl, rfl, rfl, rfl, rfl⟩ := h
        intro a ha
        obtain ⟨h1, h2x, h3, v0, hv0, hrest⟩ := ih h2 a ha
        exact ⟨h1, h2x, h3, v0, List.mem_cons_of_mem _ hv0, hrest⟩
    · cases hp : processLines items v ⟨rw, ri, v.remWeight, v.remItems⟩ lines with
      | error e => simp only [hp] at h; exact Except.noConfusion h
      | ok outp =>
        obtain ⟨st2, ls2, us1, as1⟩ := outp
        simp only [hp] at h
        cases h2 : processVehicles items st2.rw st2.ri ls2 vs with
        | error e => simp only [h2] at h; exact Except.noConfusion h
        | ok out2 =>
          obtain ⟨rwa, ria, lsa, vsa, usa, asga⟩ := out2
          simp only [h2] at h
          simp only [Except.ok.injEq, Prod.mk.injEq] at h
          obtain ⟨rfl, rfl, rfl, rfl, rfl, rfl⟩ := h
          push_neg at hskip
          obtain ⟨hwv, hiv, hsv⟩ := hskip
          intro a ha
          rcases List.mem_append.mp ha with ha1 | ha2
          · obtain ⟨hvid, hvt, hu, hnf, hit⟩ := processLines_asg hp a ha1
            exact ⟨hu, hnf, hit, v, List.mem_cons_self _ _, hvid, hvt, hsv, hwv, hiv⟩
          · obtain ⟨h1, h2x, h3, v0, hv0, hrest⟩ := ih h2 a ha2
            exact ⟨h1, h2x, h3, v0, List.mem_cons_of_mem _ hv0, hrest⟩

theorem processVehicles_pairs {items : List Item} :
    ∀ {vs : List VehicleData} {rw : ℚ} {ri : ℤ} {lines : List Line}
      {rw3 ri3 ls3 vs3 us asg},
    processVehicles items rw ri lines vs = .ok (rw3, ri3, ls3, vs3, us, asg) →
    ∀ p ∈ us.zip asg, p.1.vid = p.2.vid ∧ p.1.vtype = p.2.vtype ∧ 0 < p.2.units := by
  intro vs
  induction vs with
  | nil =>
    intro rw ri lines rw3 ri3 ls3 vs3 us asg h
    simp only [processVehicles, Except.ok.injEq, Prod.mk.injEq] at h
    obtain ⟨rfl, rfl, rfl, rfl, rfl, rfl⟩ := h
    simp
  | cons v vs ih =>
    intro rw ri lines rw3 ri3 ls3 vs3 us asg h
    simp only [processVehicles] at h
    split_ifs at h with hbreak hskip
    · simp only [Except.ok.injEq, Prod.mk.injEq] at h
      obtain ⟨rfl, rfl, rfl, rfl, rfl, rfl⟩ := h
      simp
    · cases h2 : processVehicles items rw ri lines vs with
      | error e => simp only [h2] at h; exact Except.noConfusion h
      | ok out2 =>
        obtain ⟨rwa, ria, lsa, vsa, usa, asga⟩ := out2
        simp only [h2] at h
        simp only [Except.ok.injEq, Prod.mk.injEq] at h
        obtain ⟨rfl, rfl, rfl, rfl, rfl, rfl⟩ := h
        exact ih h2
    · cases hp : processLines items v ⟨rw, ri, v.remWeight, v.remItems⟩ lines with
      | error e => simp only [hp] at h; exact Except.noConfusion h
      | ok outp =>
        obtain ⟨st2, ls2, us1, as1⟩ := outp
        simp only [hp] at h
        cases h2 : processVehicles items st2.rw st2.ri ls2 vs with
        | error e => simp only [h2] at h; exact Except.noConfusion h
        | ok out2 =>
          obtain ⟨rwa, ria, lsa, vsa, usa, asga⟩ := out2
          simp only [h2] at h
          simp only [Except.ok.injEq, Prod.mk.injEq] at h
          obtain ⟨rfl, rfl, rfl, rfl, rfl, rfl⟩ := h
          intro p hp2
          rw [List.zip_append (processLines_shape hp).2.2.2] at hp2
          rcases List.mem_append.mp hp2 with hp3 | hp3
          · exact processLines_pairs hp p hp3
          · exact ih h2 p hp3

theorem processVehicles_bounds {items : List Item}
    (hw : ∀ i ∈ items, 0 < i.weight) :
    ∀ {vs : List VehicleData} {rw : ℚ} {ri : ℤ} {lines : List Line}
      {rw3 ri3 ls3 vs3 us asg},
    processVehicles items rw ri lines vs = .ok (rw3, ri3, ls3, vs3, us, asg) →
    ∀ p ∈ vs.zip vs3,
      (p.2.remWeight = p.1.remWeight ∧ p.2.remItems = p.1.remItems) ∨
      (0 ≤ p.2.remWeight ∧ p.2.remWeight ≤ p.1.remWeight ∧
       0 ≤ p.2.remItems ∧ p.2.remItems ≤ p.1.remItems) := by
  intro vs
  induction vs with
  | nil =>
    intro rw ri lines rw3 ri3 ls3 vs3 us asg h
    simp only [processVehicles, Except.ok.injEq, Prod.mk.injEq] at h
    obtain ⟨rfl, rfl, rfl, rfl, rfl, rfl⟩ := h
    simp
  | cons v vs ih =>
    intro rw ri lines rw3 ri3 ls3 vs3 us asg h
    simp only [processVehicles] at h
    split_ifs at h with hbreak hskip
    · simp only [Except.ok.injEq, Prod.mk.injEq] at h
      obtain ⟨rfl, rfl, rfl, rfl, rfl, rfl⟩ := h
      intro p hp
      rw [zip_self_mem hp]
      exact Or.inl ⟨rfl, rfl⟩
    · cases h2 : processVehicles items rw ri lines vs with
      | error e => simp only [h2] at h; exact Except.noConfusion h
      | ok out2 =>
        obtain ⟨rwa, ria, lsa, vsa, usa, asga⟩ := out2
        simp only [h2] at h
        simp only [Except.ok.injEq, Prod.mk.injEq] at h
        obtain ⟨rfl, rfl, rfl, rfl, rfl, rfl⟩ := h
        intro p hp
        rcases List.mem_cons.mp (by simpa using hp) with rfl | hp2
        · exact Or.inl ⟨rfl, rfl⟩
        · exact ih h2 p hp2
    · cases hp : processLines items v ⟨rw, ri, v.remWeight, v.remItems⟩ lines with
      | error e => simp only [hp] at h; exact Except.noConfusion h
      | ok outp =>
        obtain ⟨st2, ls2, us1, as1⟩ := outp
        simp only [hp] at h
        cases h2 : processVehicles items st2.rw st2.ri ls2 vs with
        | error e => simp only [h2] at h; exact Except.noConfusion h
        | ok out2 =>
          obtain ⟨rwa, ria, lsa, vsa, usa, asga⟩ := out2
          simp only [h2] at h
          simp only [Except.ok.injEq, Prod.mk.injEq] at h
          obtain ⟨rfl, rfl, rfl, rfl, rfl, rfl⟩ := h
          intro p hp2
          rcases List.mem_cons.mp (by simpa using hp2) with rfl | hp3
          · by_cases hus : us1.isEmpty
            · exact Or.inl (by simp [applyPass, hus])
            · have hne : us1 ≠ [] := by simpa using hus
              obtain ⟨b1, b2, b3⟩ := processLines_bounds hw hp
              obtain ⟨b4, b5⟩ := b3 hne
              refine Or.inr ?_
              simp only [applyPass, hus, Bool.false_eq_true, if_false]
              exact ⟨b4, by simpa using b1, b5, by simpa using b2⟩
          · exact ih h2 p hp3

theorem asgWeight_append {a b : List Assign} :
    asgWeight (a ++ b) = asgWeight a + asgWeight b := by
  simp [asgWeight]

theorem processVehicles_conserv {items : List Item} :
    ∀ {vs : List VehicleData} {rw : ℚ} {ri : ℤ} {lines : List Line}
      {rw3 ri3 ls3 vs3 us asg},
    processVehicles items rw ri lines vs = .ok (rw3, ri3, ls3, vs3, us, asg) →
    vehDecSum vs vs3 = asgWeight asg ∧
    consumedSum items lines ls3 = asgWeight asg ∧
    rw - rw3 = asgWeight asg ∧
    ri - ri3 = (asg.map (fun a => a.units)).sum := by
  intro vs
  induction vs with
  | nil =>
    intro rw ri lines rw3 ri3 ls3 vs3 us asg h
    simp only [processVehicles, Except.ok.injEq, Prod.mk.injEq] at h
    obtain ⟨rfl, rfl, rfl, rfl, rfl, rfl⟩ := h
    simp [vehDecSum, asgWeight, consumedSum_self]
  | cons v vs ih =>
    intro rw ri lines rw3 ri3 ls3 vs3 us asg h
    simp only [processVehicles] at h
    split_ifs at h with hbreak hskip
    · simp only [Except.ok.injEq, Prod.mk.injEq] at h
      obtain ⟨rfl, rfl, rfl, rfl, rfl, rfl⟩ := h
      simp [vehDecSum_self, asgWeight, consumedSum_self]
    · cases h2 : processVehicles items rw ri lines vs with
      | error e => simp only [h2] at h; exact Except.noConfusion h
      | ok out2 =>
        obtain ⟨rwa, ria, lsa, vsa, usa, asga⟩ := out2
        simp only [h2] at h
        simp only [Except.ok.injEq, Prod.mk.injEq] at h
        obtain ⟨rfl, rfl, rfl, rfl, rfl, rfl⟩ := h
        obtain ⟨c1, c2, c3, c4⟩ := ih h2
        refine ⟨?_, c2, c3, c4⟩
        simp only [vehDecSum, List.zip_cons_cons, List.map_cons, List.sum_cons, sub_self,
          zero_add] at *
        exact c1
    · cases hp : processLines items v ⟨rw, ri, v.remWeight, v.remItems⟩ lines with
      | error e => simp only [hp] at h; exact Except.noConfusion h
      | ok outp =>
        obtain ⟨st2, ls2, us1, as1⟩ := outp
        simp only [hp] at h
        cases h2 : processVehicles items st2.rw st2.ri ls2 vs with
        | error e => simp only [h2] at h; exact Except.noConfusion h
        | ok out2 =>
          obtain ⟨rwa, ria, lsa, vsa, usa, asga⟩ := out2
          simp only [h2] at h
          simp only [Except.ok.injEq, Prod.mk.injEq] at h
          obtain ⟨rfl, rfl, rfl, rfl, rfl, rfl⟩ := h
          obtain ⟨pc1, pc2, pc3, pc4, pc5⟩ := processLines_conserv hp
          simp only at pc1 pc2 pc3 pc4
          obtain ⟨c1, c2, c3, c4⟩ := ih h2
          have hdec : v.remWeight - (applyPass v st2 us1).remWeight = asgWeight as1 := by
            by_cases hus : us1.isEmpty
            · have hase : as1 = [] :=
                (processLines_shape hp).2.1.mp (by simpa using hus)
              simp [applyPass, hus, hase, asgWeight]
            · simp only [applyPass, hus, Bool.false_eq_true, if_false]
              simpa using pc2
          constructor
          · simp only [vehDecSum, List.zip_cons_cons, List.map_cons, List.sum_cons]
            simp only [vehDecSum] at c1
            rw [asgWeight_append, c1]
            simp only [vehDecSum] at hdec
            linarith [hdec]
          constructor
          · have hmap : lines.map (fun l => l.itemId) = ls2.map (fun l => l.itemId) :=
              ((processLines_shape hp).1).symm
            have hlen : ls2.length = lsa.length := by
              have := congrArg List.length (processVehicles_shape h2).1
              simpa using this.symm
            rw [consumedSum_trans hmap hlen, pc5, c2, asgWeight_append]
          constructor
          · rw [asgWeight_append]
            linarith
          · simp only [List.map_append, List.sum_append]
            omega

/-- Positivity of resolved item weights only depends on the item ids of the
lines, which every pass preserves. -/
theorem linesPos_of_map_eq {items : List Item} {ls0 ls1 : List Line}
    (hmap : ls1.map (fun l => l.itemId) = ls0.map (fun l => l.itemId))
    (hpos : ∀ l ∈ ls0, ∀ it, findItem items l.itemId = some it → 0 < it.weight) :
    ∀ l ∈ ls1, ∀ it, findItem items l.itemId = some it → 0 < it.weight := by
  intro l hl it hf
  have hmem : l.itemId ∈ ls1.map (fun l => l.itemId) :=
    List.mem_map_of_mem _ hl
  rw [hmap] at hmem
  obtain ⟨l0, hl0, hid⟩ := List.mem_map.mp hmem
  exact hpos l0 hl0 it (by rwa [hid])

theorem processVehicles_total {items : List Item} :
    ∀ {vs : List VehicleData} {rw : ℚ} {ri : ℤ} {lines : List Line},
    (∀ l ∈ lines, ∀ it, findItem items l.itemId = some it → 0 < it.weight) →
    ∃ out, processVehicles items rw ri lines vs = .ok out := by
  intro vs
  induction vs with
  | nil => exact fun _ => ⟨_, rfl⟩
  | cons v vs ih =>
    intro rw ri lines hpos
    by_cases hbreak : rw ≤ 0 ∧ ri ≤ 0
    · exact ⟨(rw, ri, lines, v :: vs, [], []),
        by simp only [processVehicles, if_pos hbreak]⟩
    · by_cases hskip : v.remWeight ≤ 0 ∨ v.remItems ≤ 0 ∨ v.status = "in_use"
      · obtain ⟨out2, h2⟩ := @ih rw ri lines hpos
        obtain ⟨rwa, ria, lsa, vsa, usa, asga⟩ := out2
        exact ⟨(rwa, ria, lsa, v :: vsa, usa, asga),
          by simp only [processVehicles, if_neg hbreak, if_pos hskip, h2]⟩
      · obtain ⟨outp, hp⟩ :=
          @processLines_total items v ⟨rw, ri, v.remWeight, v.remItems⟩ lines hpos
        obtain ⟨st2, ls2, us1, as1⟩ := outp
        obtain ⟨out2, h2⟩ := @ih st2.rw st2.ri ls2
          (linesPos_of_map_eq (processLines_shape hp).1 hpos)
        obtain ⟨rwa, ria, lsa, vsa, usa, asga⟩ := out2
        exact ⟨(rwa, ria, lsa, applyPass v st2 us1 :: vsa, us1 ++ usa, as1 ++ asga),
          by simp only [processVehicles, if_neg hbreak, if_neg hskip, hp, h2]⟩

/-- With distinct vehicle ids, the last update record filtered for a
vehicle's id carries exactly the final remaining capacities and status of
that vehicle's row. -/
theorem processVehicles_filter_last {items : List Item} :
    ∀ {vs : List VehicleData} {rw : ℚ} {ri : ℤ} {lines : List Line}
      {rw3 ri3 ls3 vs3 us asg},
    processVehicles items rw ri lines vs = .ok (rw3, ri3, ls3, vs3, us, asg) →
    (vs.map (fun v => v.vid)).Nodup →
    ∀ p ∈ vs.zip vs3, ∀ u,
      (us.filter (fun x => x.vid == p.1.vid)).getLast? = some u →
      u.remWeight = p.2.remWeight ∧ u.remItems = p.2.remItems ∧
        u.status = p.2.status := by
  intro vs
  induction vs with
  | nil =>
    intro rw ri lines rw3 ri3 ls3 vs3 us asg h hnd
    simp only [processVehicles, Except.ok.injEq, Prod.mk.injEq] at h
    obtain ⟨rfl, rfl, rfl, rfl, rfl, rfl⟩ := h
    simp
  | cons v vs ih =>
    intro rw ri lines rw3 ri3 ls3 vs3 us asg h hnd
    simp only [List.map_cons, List.nodup_cons] at hnd
    obtain ⟨hvq, hndt⟩ := hnd
    simp only [processVehicles] at h
    split_ifs at h with hbreak hskip
    · simp only [Except.ok.injEq, Prod.mk.injEq] at h
      obtain ⟨rfl, rfl, rfl, rfl, rfl, rfl⟩ := h
      intro p hp u hu
      simp at hu
    · cases h2 : processVehicles items rw ri lines vs with
      | error e => simp only [h2] at h; exact Except.noConfusion h
      | ok out2 =>
        obtain ⟨rwa, ria, lsa, vsa, usa, asga⟩ := out2
        simp only [h2] at h
        simp only [Except.ok.injEq, Prod.mk.injEq] at h
        obtain ⟨rfl, rfl, rfl, rfl, rfl, rfl⟩ := h
        have hnil : ∀ w : String, w ∉ vs.map (fun v => v.vid) →
            usa.filter (fun x => x.vid == w) = [] := by
          intro w hw
          refine List.filter_eq_nil_iff.mpr (fun x hx => ?_)
          obtain ⟨-, v0, hv0, hxv, -⟩ := processVehicles_records h2 x hx
          simp only [beq_iff_eq, hxv]
          intro hcon
          exact hw (by rw [← hcon]; exact List.mem_map_of_mem _ hv0)
        intro p hp u hu
        rcases List.mem_cons.mp (by simpa using hp) with rfl | hp2
        · rw [hnil v.vid hvq] at hu
          simp at hu
        · exact ih h2 hndt p hp2 u hu
    · cases hp : processLines items v ⟨rw, ri, v.remWeight, v.remItems⟩ lines with
      | error e => simp only [hp] at h; exact Except.noConfusion h
      | ok outp =>
        obtain ⟨st2, ls2, us1, as1⟩ := outp
        simp only [hp] at h
        cases h2 : processVehicles items st2.rw st2.ri ls2 vs with
        | error e => simp only [h2] at h; exact Except.noConfusion h
        | ok out2 =>
          obtain ⟨rwa, ria, lsa, vsa, usa, asga⟩ := out2
          simp only [h2] at h
          simp only [Except.ok.injEq, Prod.mk.injEq] at h
          obtain ⟨rfl, rfl, rfl, rfl, rfl, rfl⟩ := h
          have hnil : ∀ w : String, w ∉ vs.map (fun v => v.vid) →
              usa.filter (fun x => x.vid == w) = [] := by
            intro w hw
            refine List.filter_eq_nil_iff.mpr (fun x hx => ?_)
            obtain ⟨-, v0, hv0, hxv, -⟩ := processVehicles_records h2 x hx
            simp only [beq_iff_eq, hxv]
            intro hcon
            exact hw (by rw [← hcon]; exact List.mem_map_of_mem _ hv0)
          have hall : ∀ u1 ∈ us1, u1.vid = v.vid :=
            fun u1 hu1 => (processLines_records hp u1 hu1).1
          intro p hp2 u hu
          rcases List.mem_cons.mp (by simpa using hp2) with rfl | hp3
          · rw [List.filter_append, hnil v.vid hvq,
              List.filter_eq_self.mpr (fun x hx => by
                simp only [beq_iff_eq]; exact hall x hx),
              List.append_nil] at hu
            rcases processLines_last hp with rfl | ⟨u0, hg, hgw, hgi⟩
            · simp at hu
            · have hne : us1 ≠ [] := by
                intro hcon; rw [hcon] at hg; exact Option.noConfusion hg
              have hue : u = u0 := by rw [hu] at hg; exact Option.some.inj hg
              subst hue
              have hmem : u ∈ us1 := List.mem_of_mem_getLast? hg
              have hst : u.status = "in_use" := (processLines_records hp u hmem).2.2
              have hei : us1.isEmpty = false := by
                cases us1 with
                | nil => exact absurd rfl hne
                | cons a t => rfl
              simp only [applyPass, hei, Bool.false_eq_true, if_false]
              exact ⟨hgw, hgi, hst⟩
          · have hone : p.1.vid ∈ vs.map (fun v => v.vid) :=
              List.mem_map_of_mem _ (List.of_mem_zip hp3).1
            have hvne : ∀ u1 ∈ us1, ¬(u1.vid == p.1.vid) = true := by
              intro u1 hu1
              simp only [beq_iff_eq, hall u1 hu1]
              intro hcon
              exact hvq (hcon ▸ hone)
            rw [List.filter_append, List.filter_eq_nil_iff.mpr hvne,
              List.nil_append] at hu
            exact ih h2 hndt p hp3 u hu

/-! ### A request line that does not resolve in the catalog is inert -/

theorem processLines_skipline {items : List Item} {v : VehicleData} {bad : Line}
    (hbad : findItem items bad.itemId = none) :
    ∀ {st : PassState} (l1 l2 : List Line),
    processLines items v st (l1 ++ bad :: l2) =
      match processLines items v st (l1 ++ l2) with
      | .error e => .error e
      | .ok (st2, ls2, us, asg) =>
        .ok (st2, ls2.take l1.length ++ bad :: ls2.drop l1.length, us, asg) := by
  intro st l1
  induction l1 generalizing st with
  | nil =>
    intro l2
    have hb : processLine items v st bad = .ok (st, bad, [], []) := by
      simp [processLine, hbad]
    cases h2 : processLines items v st l2 with
    | error e =>
      simp only [List.nil_append, processLines, hb, h2]
    | ok out2 =>
      obtain ⟨st2, ls2, us2, as2⟩ := out2
      simp only [List.nil_append, processLines, hb, h2, List.length_nil, List.take_zero,
        List.drop_zero]
  | cons x xs ih =>
    intro l2
    cases h1 : processLine items v st x with
    | error e =>
      simp only [List.cons_append, processLines, h1]
    | ok out1 =>
      obtain ⟨st1, x1, us1, as1⟩ := out1
      simp only [List.cons_append, processLines, h1]
      rw [show xs.append (bad :: l2) = xs ++ bad :: l2 from rfl, ih l2]
      cases h2 : processLines items v st1 (xs ++ l2) with
      | error e => simp only [h2]
      | ok out2 =>
        obtain ⟨st2, ls2, us2, as2⟩ := out2
        simp only [h2, List.length_cons, List.take_succ_cons, List.drop_succ_cons,
          List.cons_append]

theorem processVehicles_skipline {items : List Item} {bad : Line}
    (hbad : findItem items bad.itemId = none) :
    ∀ {vs : List VehicleData} {rw : ℚ} {ri : ℤ} (ls : List Line) (n : ℕ),
    n ≤ ls.length →
    processVehicles items rw ri (ls.take n ++ bad :: ls.drop n) vs =
      match processVehicles items rw ri ls vs with
      | .error e => .error e
      | .ok (rw3, ri3, ls3, vs3, us, asg) =>
        .ok (rw3, ri3, ls3.take n ++ bad :: ls3.drop n, vs3, us, asg) := by
  intro vs
  induction vs with
  | nil =>
    intro rw ri ls n hn
    simp only [processVehicles]
  | cons v vs ih =>
    intro rw ri ls n hn
    simp only [processVehicles]
    split_ifs with hbreak hskip
    · rfl
    · rw [ih ls n hn]
      cases h2 : processVehicles items rw ri ls vs with
      | error e => rfl
      | ok out2 =>
        obtain ⟨rwa, ria, lsa, vsa, usa, asga⟩ := out2
        rfl
    · have htl : (ls.take n).length = n := by
        simpa using hn
      have hsplit := @processLines_skipline items v bad hbad
        ⟨rw, ri, v.remWeight, v.remItems⟩ (ls.take n) (ls.drop n)
      rw [List.take_append_drop, htl] at hsplit
      rw [hsplit]
      cases hp : processLines items v ⟨rw, ri, v.remWeight, v.remItems⟩ ls with
      | error e => simp only [hp]
      | ok outp =>
        obtain ⟨st2, ls2, us1, as1⟩ := outp
        simp only [hp]
        have hlen : ls2.length = ls.length := by
          have := congrArg List.length (processLines_shape hp).1
          simpa using this
        rw [ih ls2 n (hlen ▸ hn)]
        cases h2 : processVehicles items st2.rw st2.ri ls2 vs with
        | error e => simp only [h2]
        | ok out2 =>
          obtain ⟨rwa, ria, lsa, vsa, usa, asga⟩ := out2
          simp only [h2]

theorem processLines_updates_nonneg {items : List Item} {v : VehicleData}
    (hw : ∀ i ∈ items, 0 < i.weight) :
    ∀ {st : PassState} {lines : List Line} {st2 ls2 us asg},
    processLines items v st lines = .ok (st2, ls2, us, asg) →
    ∀ u ∈ us, 0 ≤ u.remWeight ∧ 0 ≤ u.remItems := by
  intro st lines
  induction lines generalizing st with
  | nil =>
    intro st2 ls2 us asg h
    simp only [processLines, Except.ok.injEq, Prod.mk.injEq] at h
    obtain ⟨rfl, rfl, rfl, rfl⟩ := h
    simp
  | cons l ls ih =>
    intro st2 ls2 us asg h
    simp only [processLines] at h
    cases h1 : processLine items v st l with
    | error e => simp only [h1] at h; exact Except.noConfusion h
    | ok out1 =>
      obtain ⟨st1, l1, us1, as1⟩ := out1
      simp only [h1] at h
      cases h2 : processLines items v st1 ls with
      | error e => simp only [h2] at h; exact Except.noConfusion h
      | ok out2 =>
        obtain ⟨st2x, ls2x, us2, as2⟩ := out2
        simp only [h2] at h
        simp only [Except.ok.injEq, Prod.mk.injEq] at h
        obtain ⟨rfl, rfl, rfl, rfl⟩ := h
        rcases processLine_ok_elim h1 with he | ⟨it, hf, hbf, hwz, hn, he⟩ <;>
          simp only [Prod.mk.injEq] at he <;>
          obtain ⟨rfl, rfl, rfl, rfl⟩ := he
        · simpa using ih h2
        · intro u hu
          rcases List.mem_cons.mp (by simpa using hu) with rfl | hu2
          · have hwpos : 0 < it.weight := hw it (List.mem_of_find?_eq_some hf)
            obtain ⟨-, -, hric, -, hrwc⟩ := loadable_facts hwpos hn
            exact ⟨by simp only; linarith, by simp only; omega⟩
          · exact ih h2 u hu2

theorem processVehicles_updates_nonneg {items : List Item}
    (hw : ∀ i ∈ items, 0 < i.weight) :
    ∀ {vs : List VehicleData} {rw : ℚ} {ri : ℤ} {lines : List Line}
      {rw3 ri3 ls3 vs3 us asg},
    processVehicles items rw ri lines vs = .ok (rw3, ri3, ls3, vs3, us, asg) →
    ∀ u ∈ us, 0 ≤ u.remWeight ∧ 0 ≤ u.remItems := by
  intro vs
  induction vs with
  | nil =>
    intro rw ri lines rw3 ri3 ls3 vs3 us asg h
    simp only [processVehicles, Except.ok.injEq, Prod.mk.injEq] at h
    obtain ⟨rfl, rfl, rfl, rfl, rfl, rfl⟩ := h
    simp
  | cons v vs ih =>
    intro rw ri lines rw3 ri3 ls3 vs3 us asg h
    simp only [processVehicles] at h
    split_ifs at h with hbreak hskip
    · simp only [Except.ok.injEq, Prod.mk.injEq] at h
      obtain ⟨rfl, rfl, rfl, rfl, rfl, rfl⟩ := h
      simp
    · cases h2 : processVehicles items rw ri lines vs with
      | error e => simp only [h2] at h; exact Except.noConfusion h
      | ok out2 =>
        obtain ⟨rwa, ria, lsa, vsa, usa, asga⟩ := out2
        simp only [h2] at h
        simp only [Except.ok.injEq, Prod.mk.injEq] at h
        obtain ⟨rfl, rfl, rfl, rfl, rfl, rfl⟩ := h
        exact ih h2
    · cases hp : processLines items v ⟨rw, ri, v.remWeight, v.remItems⟩ lines with
      | error e => simp only [hp] at h; exact Except.noConfusion h
      | ok outp =>
        obtain ⟨st2, ls2, us1, as1⟩ := outp
        simp only [hp] at h
        cases h2 : processVehicles items st2.rw st2.ri ls2 vs with
        | error e => simp only [h2] at h; exact Except.noConfusion h
        | ok out2 =>
          obtain ⟨rwa, ria, lsa, vsa, usa, asga⟩ := out2
          simp only [h2] at h
          simp only [Except.ok.injEq, Prod.mk.injEq] at h
          obtain ⟨rfl, rfl, rfl, rfl, rfl, rfl⟩ := h
          intro u hu
          rcases List.mem_append.mp hu with hu1 | hu2
          · exact processLines_updates_nonneg hw hp u hu1
          · exact ih h2 u hu2

/-- Destructor for a successful run: the outer loop succeeded on the sorted
fleet and every field of the result is the corresponding loop output. -/
theorem selectVehicleRun_ok_elim {totalWeight : ℚ} {itemCount : ℤ}
    {lines : List Line} {vehicles : List VehicleData} {items : List Item}
    {r : AllocResult}
    (h : selectVehicleRun totalWeight itemCount lines vehicles items = .ok r) :
    processVehicles items totalWeight itemCount lines (sortVehicles vehicles) =
      .ok (r.remainingWeight, r.remainingItems, r.finalLines, r.finalVehicles,
           r.updates, r.asg) ∧
    r.warning = decide (0 < r.remainingItems) := by
  unfold selectVehicleRun at h
  cases hpv : processVehicles items totalWeight itemCount lines (sortVehicles vehicles) with
  | error e => simp only [hpv] at h; exact Except.noConfusion h
  | ok out =>
    obtain ⟨rw, ri, ls, vs, us, asg⟩ := out
    simp only [hpv] at h
    have hr : r = ⟨us, asg, vs, rw, ri, ls, decide (0 < ri)⟩ := (Except.ok.inj h).symm
    subst hr
    exact ⟨rfl, rfl⟩

/-- The division-safety precondition in its bounded (checkable) form implies
the form used by the totality lemmas. -/
theorem linesPos_of_forall {items : List Item} {lines : List Line}
    (hpos : ∀ l ∈ lines, ∀ it ∈ items, it.id = l.itemId → 0 < it.weight) :
    ∀ l ∈ lines, ∀ it, findItem items l.itemId = some it → 0 < it.weight :=
  fun l hl it hf => hpos l hl it (List.mem_of_find?_eq_some hf)
    (by simpa using List.find?_some hf)

/-! ### Claim theorems -/

/-- **C9**: the allocator considers vehicles in the deterministic order
obtained by sorting ascending by max item-count capacity, ties broken by
ascending max weight capacity: the sorted fleet is a permutation of the
input fleet, it is sorted under the key order (hence so is its eligible
sublist), and running the allocator on the pre-sorted fleet is the same as
running it on the input fleet — the sort is the only order-dependence before
any per-vehicle assignment is attempted. -/
theorem C9_sorted_order (vehicles : List VehicleData) :
    (sortVehicles vehicles).Perm vehicles ∧
    List.Sorted vehicleKeyLE (sortVehicles vehicles) ∧
    List.Sorted vehicleKeyLE ((sortVehicles vehicles).filter eligible) ∧
    ∀ (totalWeight : ℚ) (itemCount : ℤ) (lines : List Line) (items : List Item),
      selectVehicleRun totalWeight itemCount lines (sortVehicles vehicles) items =
        selectVehicleRun totalWeight itemCount lines vehicles items := by
  refine ⟨List.perm_insertionSort _ _, List.sorted_insertionSort _ _,
    List.Pairwise.filter eligible (List.sorted_insertionSort _ _), ?_⟩
  intro totalWeight itemCount lines items
  unfold selectVehicleRun
  rw [show sortVehicles (sortVehicles vehicles) = sortVehicles vehicles from
    (List.sorted_insertionSort vehicleKeyLE vehicles).insertionSort_eq]

/-- **C8**: conservation — the total weight-capacity decrement applied
across all touched vehicles equals the total consumed quantity times unit
weight summed over the request lines (both sides equal the total weight of
the individual assignments). -/
theorem C8_conservation {totalWeight : ℚ} {itemCount : ℤ} {lines : List Line}
    {vehicles : List VehicleData} {items : List Item} {r : AllocResult}
    (h : selectVehicleRun totalWeight itemCount lines vehicles items = .ok r) :
    vehDecSum (sortVehicles vehicles) r.finalVehicles =
      consumedSum items lines r.finalLines ∧
    vehDecSum (sortVehicles vehicles) r.finalVehicles = asgWeight r.asg := by
  obtain ⟨hpv, -⟩ := selectVehicleRun_ok_elim h
  obtain ⟨c1, c2, -, -⟩ := processVehicles_conserv hpv
  exact ⟨c1.trans c2.symm, c1⟩

/-- Spec Scenario A (one bike, one ship, three units of a 2 kg solid item):
the catalog, the request, the fleet, and the run result. -/
def scnA_items : List Item := [⟨"I1", 2, "solid"⟩]

def scnA_lines : List Line := [⟨"I1", 3⟩]

def scnA_fleet : List VehicleData :=
  [⟨"S1", "Ship", 100000, 10000, 100000, 10000, "free"⟩,
   ⟨"B1", "Bike", 10, 2, 10, 2, "free"⟩]

def scnA_result : AllocResult :=
  ⟨[⟨"B1", "Bike", "in_use", 6, 0⟩, ⟨"S1", "Ship", "in_use", 99998, 9999⟩],
   [⟨"B1", "Bike", "I1", "solid", 2, 2⟩, ⟨"S1", "Ship", "I1", "solid", 1, 2⟩],
   [⟨"B1", "Bike", 10, 2, 6, 0, "in_use"⟩,
    ⟨"S1", "Ship", 100000, 10000, 99998, 9999, "in_use"⟩],
   0, 0, [⟨"I1", 0⟩], false⟩

/-- Evaluation of the allocator on Scenario A. -/
theorem scnA_run :
    selectVehicleRun 6 3 scnA_lines scnA_fleet scnA_items = .ok scnA_result := by
  norm_num [selectVehicleRun, processVehicles, processLines, processLine,
    findItem, loadableItems, pytrunc, sortVehicles, List.insertionSort,
    List.orderedInsert, vehicleKeyLE, applyPass, scnA_items, scnA_lines,
    scnA_fleet, scnA_result, List.find?]
  simp
  norm_num [processLines, processLine, findItem, loadableItems, pytrunc,
    List.find?]
  simp

/-- **C8 witness**: the conservation identity evaluated on Scenario A. -/
theorem C8_conservation_witness :
    vehDecSum (sortVehicles scnA_fleet) scnA_result.finalVehicles =
      consumedSum scnA_items scnA_lines scnA_result.finalLines ∧
    vehDecSum (sortVehicles scnA_fleet) scnA_result.finalVehicles =
      asgWeight scnA_result.asg :=
  @C8_conservation 6 3 scnA_lines scnA_fleet scnA_items scnA_result scnA_run

/-- **C2**: no assignment ever puts units of a fragile-typed item on a
two-wheeled (`Bike`) vehicle: every assignment of a successful run carries
positive units, never pairs vehicle type `Bike` with item type `fragile`,
its item type is the catalog type of its item id, and its vehicle is one of
the input vehicles. -/
theorem C2_no_fragile_on_bike {totalWeight : ℚ} {itemCount : ℤ}
    {lines : List Line} {vehicles : List VehicleData} {items : List Item}
    {r : AllocResult}
    (h : selectVehicleRun totalWeight itemCount lines vehicles items = .ok r) :
    ∀ a ∈ r.asg, 0 < a.units ∧ ¬(a.vtype = "Bike" ∧ a.itemType = "fragile") ∧
      (∃ it, findItem items a.itemId = some it ∧ a.itemType = it.itemType) ∧
      ∃ v0 ∈ vehicles, a.vid = v0.vid ∧ a.vtype = v0.vtype := by
  obtain ⟨hpv, -⟩ := selectVehicleRun_ok_elim h
  intro a ha
  obtain ⟨h1, h2, ⟨it, hit, hty, -⟩, v0, hv0, hav, havt, -⟩ :=
    processVehicles_asg hpv a ha
  exact ⟨h1, h2, ⟨it, hit, hty⟩,
    v0, (List.perm_insertionSort vehicleKeyLE vehicles).subset hv0, hav, havt⟩

/-- Spec Scenario B (same fleet, three units of a 1 kg fragile item) and
its run result. -/
def scnB_items : List Item := [⟨"I1", 1, "fragile"⟩]

def scnB_fleet : List VehicleData :=
  [⟨"S1", "Ship", 100000, 10000, 100000, 10000, "free"⟩,
   ⟨"B1", "Bike", 10, 2, 10, 2, "free"⟩]

def scnB_lines : List Line := [⟨"I1", 3⟩]

def scnB_result : AllocResult :=
  ⟨[⟨"S1", "Ship", "in_use", 99997, 9997⟩],
   [⟨"S1", "Ship", "I1", "fragile", 3, 1⟩],
   [⟨"B1", "Bike", 10, 2, 10, 2, "free"⟩,
    ⟨"S1", "Ship", 100000, 10000, 99997, 9997, "in_use"⟩],
   0, 0, [⟨"I1", 0⟩], false⟩

/-- Evaluation of the allocator on Scenario B. -/
theorem scnB_run :
    selectVehicleRun 3 3 scnB_lines scnB_fleet scnB_items = .ok scnB_result := by
  norm_num [selectVehicleRun, processVehicles, processLines, processLine,
    findItem, loadableItems, pytrunc, sortVehicles, List.insertionSort,
    List.orderedInsert, vehicleKeyLE, applyPass, scnB_items, scnB_lines,
    scnB_fleet, scnB_result, List.find?]
  simp

/-- The single assignment Scenario B produces. -/
def scnB_asg : Assign := ⟨"S1", "Ship", "I1", "fragile", 3, 1⟩

/-- **C2 witness**: Scenario B — a fragile item offered to a bike and a
ship; the ship takes all three units and the conclusion holds for that
assignment. -/
theorem C2_no_fragile_on_bike_witness :
    0 < scnB_asg.units ∧
    ¬(scnB_asg.vtype = "Bike" ∧ scnB_asg.itemType = "fragile") ∧
    (∃ it, findItem scnB_items scnB_asg.itemId = some it ∧
      scnB_asg.itemType = it.itemType) ∧
    ∃ v0 ∈ scnB_fleet, scnB_asg.vid = v0.vid ∧ scnB_asg.vtype = v0.vtype :=
  @C2_no_fragile_on_bike 3 3 scnB_lines scnB_fleet scnB_items scnB_result scnB_run
    scnB_asg (by simp [scnB_result, scnB_asg])

/-- One `in_use` truck with ample remaining capacity, offered one unit of a
1 kg solid item. -/
def c4_fleet : List VehicleData := [⟨"V1", "Truck", 100, 100, 50, 50, "in_use"⟩]

def c4_items : List Item := [⟨"I1", 1, "solid"⟩]

def c4_lines : List Line := [⟨"I1", 1⟩]

def c4_result : AllocResult := ⟨[], [], c4_fleet, 1, 1, c4_lines, true⟩

theorem c4_run :
    selectVehicleRun 1 1 c4_lines c4_fleet c4_items = .ok c4_result := by
  norm_num [selectVehicleRun, processVehicles, processLines, processLine,
    findItem, loadableItems, pytrunc, sortVehicles, List.insertionSort,
    List.orderedInsert, vehicleKeyLE, applyPass, c4_items, c4_lines,
    c4_fleet, c4_result, List.find?]

/-- **C4 counterexample**: a vehicle marked `in_use` by a prior call, with
strictly positive remaining weight and item capacities, receives nothing in
a later allocator call: the run produces no update and no assignment, the
full request stays unallocated, and the vehicle row is untouched — so such
a vehicle is not "still eligible and able to receive units". -/
theorem C4_counterexample :
    (∀ v0 ∈ c4_fleet, v0.status = "in_use" ∧ 0 < v0.remWeight ∧ 0 < v0.remItems) ∧
    ∃ r, selectVehicleRun 1 1 c4_lines c4_fleet c4_items = .ok r ∧
      r.updates = [] ∧ r.asg = [] ∧ r.remainingItems = 1 ∧
      r.finalVehicles = c4_fleet :=
  ⟨by norm_num [c4_fleet], c4_result, c4_run, rfl, rfl, rfl, rfl⟩

/-- **C4 (amended)**: a vehicle with status `in_use` is skipped entirely,
regardless of its remaining capacities: its row is returned unchanged, and
every update record stems from a vehicle that was not `in_use` and had both
remaining capacities strictly positive. -/
theorem C4_in_use_skipped {totalWeight : ℚ} {itemCount : ℤ} {lines : List Line}
    {vehicles : List VehicleData} {items : List Item} {r : AllocResult}
    (h : selectVehicleRun totalWeight itemCount lines vehicles items = .ok r) :
    (∀ p ∈ (sortVehicles vehicles).zip r.finalVehicles,
      p.1.status = "in_use" → p.2 = p.1) ∧
    ∀ u ∈ r.updates, ∃ v0 ∈ vehicles, u.vid = v0.vid ∧ u.vtype = v0.vtype ∧
      ¬(v0.status = "in_use") ∧ 0 < v0.remWeight ∧ 0 < v0.remItems := by
  obtain ⟨hpv, -⟩ := selectVehicleRun_ok_elim h
  constructor
  · intro p hp hst
    rcases processVehicles_vehicles hpv p hp with he | ⟨-, -, -, -, -, hno, -, -⟩
    · exact he
    · exact absurd hst hno
  · intro u hu
    obtain ⟨-, v0, hv0, hrest⟩ := processVehicles_records hpv u hu
    exact ⟨v0, (List.perm_insertionSort vehicleKeyLE vehicles).subset hv0, hrest⟩

/-- **C4 witness**: the amended statement evaluated on the `in_use` truck
input. -/
theorem C4_in_use_skipped_witness :
    (∀ p ∈ (sortVehicles c4_fleet).zip c4_result.finalVehicles,
      p.1.status = "in_use" → p.2 = p.1) ∧
    ∀ u ∈ c4_result.updates, ∃ v0 ∈ c4_fleet, u.vid = v0.vid ∧ u.vtype = v0.vtype ∧
      ¬(v0.status = "in_use") ∧ 0 < v0.remWeight ∧ 0 < v0.remItems :=
  C4_in_use_skipped c4_run

/-- A free truck with consistent capacities, but a catalog item of negative
unit weight: loading it increases the vehicle's remaining weight capacity
beyond its maximum. -/
def c3_fleet : List VehicleData := [⟨"V1", "Truck", 10, 10, 10, 10, "free"⟩]

def c3_items : List Item := [⟨"I1", -1, "solid"⟩]

def c3_lines : List Line := [⟨"I1", 5⟩]

def c3_result : AllocResult :=
  ⟨[⟨"V1", "Truck", "in_use", 15, 5⟩],
   [⟨"V1", "Truck", "I1", "solid", 5, -1⟩],
   [⟨"V1", "Truck", 10, 10, 15, 5, "in_use"⟩],
   -5, 0, [⟨"I1", 0⟩], false⟩

theorem c3_run :
    selectVehicleRun (-10) 5 c3_lines c3_fleet c3_items = .ok c3_result := by
  norm_num [selectVehicleRun, processVehicles, processLines, processLine,
    findItem, loadableItems, pytrunc, sortVehicles, List.insertionSort,
    List.orderedInsert, vehicleKeyLE, applyPass, c3_items, c3_lines,
    c3_fleet, c3_result, List.find?]
  simp

/-- **C3 counterexample**: with every vehicle initially satisfying
`0 ≤ remaining ≤ max` for both capacities, the allocator can still return a
vehicle violating `remaining_weight ≤ max_weight` when a catalog item has
non-positive unit weight (here −1 kg): the claim does not hold for every
input. -/
theorem C3_counterexample :
    (∀ v0 ∈ c3_fleet, capacityOK v0) ∧
    ∃ r, selectVehicleRun (-10) 5 c3_lines c3_fleet c3_items = .ok r ∧
      ∃ v0 ∈ r.finalVehicles, ¬(v0.remWeight ≤ v0.maxWeight) :=
  ⟨by norm_num [c3_fleet, capacityOK], c3_result, c3_run,
   ⟨"V1", "Truck", 10, 10, 15, 5, "in_use"⟩, by simp [c3_result],
   by norm_num⟩

/-- **C3 (amended)**: when every catalog item has strictly positive unit
weight and every vehicle initially satisfies `0 ≤ remaining ≤ max` for both
weight and item-count capacity, then after the allocator runs every
returned vehicle row still satisfies the capacity invariant, and every
emitted allocation record carries nonnegative remaining capacities. -/
theorem C3_capacity_invariant {totalWeight : ℚ} {itemCount : ℤ}
    {lines : List Line} {vehicles : List VehicleData} {items : List Item}
    {r : AllocResult}
    (hw : ∀ i ∈ items, 0 < i.weight)
    (hv : ∀ v0 ∈ vehicles, capacityOK v0)
    (h : selectVehicleRun totalWeight itemCount lines vehicles items = .ok r) :
    (∀ v0 ∈ r.finalVehicles, capacityOK v0) ∧
    ∀ u ∈ r.updates, 0 ≤ u.remWeight ∧ 0 ≤ u.remItems := by
  obtain ⟨hpv, -⟩ := selectVehicleRun_ok_elim h
  constructor
  · intro v0 hv0
    have hlen : (sortVehicles vehicles).length = r.finalVehicles.length :=
      ((processVehicles_shape hpv).2.1).symm
    obtain ⟨a, hpair⟩ := mem_zip_exists_left hlen hv0
    have haOK : capacityOK a :=
      hv a ((List.perm_insertionSort vehicleKeyLE vehicles).subset
        (List.of_mem_zip hpair).1)
    obtain ⟨h1, h2, h3, h4⟩ := haOK
    rcases processVehicles_vehicles hpv _ hpair with he | ⟨-, -, hmw, hmi, -, -, -, -⟩
    · have he2 : v0 = a := he
      rw [he2]; exact ⟨h1, h2, h3, h4⟩
    · have hmw2 : v0.maxWeight = a.maxWeight := hmw
      have hmi2 : v0.maxItems = a.maxItems := hmi
      rcases processVehicles_bounds hw hpv _ hpair with ⟨hrw, hri⟩ | ⟨b1, b2, b3, b4⟩
      · have hrw2 : v0.remWeight = a.remWeight := hrw
        have hri2 : v0.remItems = a.remItems := hri
        exact ⟨hrw2 ▸ h1, by rw [hrw2, hmw2]; exact h2,
          hri2 ▸ h3, by rw [hri2, hmi2]; exact h4⟩
      · have b2a : v0.remWeight ≤ a.remWeight := b2
        have b4a : v0.remItems ≤ a.remItems := b4
        exact ⟨b1, by rw [hmw2]; exact b2a.trans h2,
          b3, by rw [hmi2]; exact b4a.trans h4⟩
  · exact processVehicles_updates_nonneg hw hpv

/-- **C3 witness**: the amended capacity invariant evaluated on Scenario A. -/
theorem C3_capacity_invariant_witness :
    (∀ v0 ∈ scnA_result.finalVehicles, capacityOK v0) ∧
    ∀ u ∈ scnA_result.updates, 0 ≤ u.remWeight ∧ 0 ≤ u.remItems :=
  C3_capacity_invariant (by norm_num [scnA_items])
    (by norm_num [scnA_fleet, capacityOK]) scnA_run

/-- One large truck receiving two different request lines in a single call. -/
def c5_fleet : List VehicleData := [⟨"V1", "Truck", 100, 100, 100, 100, "free"⟩]

def c5_items : List Item := [⟨"I1", 1, "solid"⟩, ⟨"I2", 1, "solid"⟩]

def c5_lines : List Line := [⟨"I1", 1⟩, ⟨"I2", 1⟩]

def c5_result : AllocResult :=
  ⟨[⟨"V1", "Truck", "in_use", 99, 99⟩, ⟨"V1", "Truck", "in_use", 98, 98⟩],
   [⟨"V1", "Truck", "I1", "solid", 1, 1⟩, ⟨"V1", "Truck", "I2", "solid", 1, 1⟩],
   [⟨"V1", "Truck", 100, 100, 98, 98, "in_use"⟩],
   0, 0, [⟨"I1", 0⟩, ⟨"I2", 0⟩], false⟩

theorem c5_run :
    selectVehicleRun 2 2 c5_lines c5_fleet c5_items = .ok c5_result := by
  norm_num [selectVehicleRun, processVehicles, processLines, processLine,
    findItem, loadableItems, pytrunc, sortVehicles, List.insertionSort,
    List.orderedInsert, vehicleKeyLE, applyPass, c5_items, c5_lines,
    c5_fleet, c5_result, List.find?]
  simp
  norm_num

/-- **C5 counterexample**: a vehicle that is loaded from two request lines
in one call appears in the returned list once per loaded line — two records
for the same vehicle id, not "exactly one terminal record per vehicle that
received at least one unit". -/
theorem C5_counterexample :
    ∃ r, selectVehicleRun 2 2 c5_lines c5_fleet c5_items = .ok r ∧
      r.updates.map (fun u => u.vid) = ["V1", "V1"] ∧
      ¬(r.updates.map (fun u => u.vid)).Nodup ∧
      (r.asg.map (fun a => a.units)).sum = 2 :=
  ⟨c5_result, c5_run, rfl, by decide, by decide⟩

/-- **C5 (amended)**: the returned list contains one record per
(vehicle, request line) pair from which units were actually assigned — every
record corresponds one-to-one to an assignment with positive units on the
same vehicle (so no record for a vehicle that receives zero assignment); the
records of one vehicle need not be unique, but when the input vehicle ids
are distinct the LAST record for a vehicle carries exactly its cumulative
final remaining capacities and status after all lines were processed. -/
theorem C5_last_record_cumulative {totalWeight : ℚ} {itemCount : ℤ}
    {lines : List Line} {vehicles : List VehicleData} {items : List Item}
    {r : AllocResult}
    (hnd : (vehicles.map (fun v => v.vid)).Nodup)
    (h : selectVehicleRun totalWeight itemCount lines vehicles items = .ok r) :
    r.updates.length = r.asg.length ∧
    (∀ p ∈ r.updates.zip r.asg,
      p.1.vid = p.2.vid ∧ p.1.vtype = p.2.vtype ∧ 0 < p.2.units) ∧
    ∀ p ∈ (sortVehicles vehicles).zip r.finalVehicles, ∀ u,
      (r.updates.filter (fun x => x.vid == p.1.vid)).getLast? = some u →
      u.remWeight = p.2.remWeight ∧ u.remItems = p.2.remItems ∧
        u.status = p.2.status := by
  obtain ⟨hpv, -⟩ := selectVehicleRun_ok_elim h
  have hnd2 : ((sortVehicles vehicles).map (fun v => v.vid)).Nodup :=
    (((List.perm_insertionSort vehicleKeyLE vehicles).map
      (fun v => v.vid)).nodup_iff).mpr hnd
  exact ⟨(processVehicles_shape hpv).2.2, processVehicles_pairs hpv,
    processVehicles_filter_last hpv hnd2⟩

/-- **C5 witness**: the amended statement evaluated on the two-line /
one-truck input. -/
theorem C5_last_record_cumulative_witness :
    c5_result.updates.length = c5_result.asg.length ∧
    (∀ p ∈ c5_result.updates.zip c5_result.asg,
      p.1.vid = p.2.vid ∧ p.1.vtype = p.2.vtype ∧ 0 < p.2.units) ∧
    ∀ p ∈ (sortVehicles c5_fleet).zip c5_result.finalVehicles, ∀ u,
      (c5_result.updates.filter (fun x => x.vid == p.1.vid)).getLast? = some u →
      u.remWeight = p.2.remWeight ∧ u.remItems = p.2.remItems ∧
        u.status = p.2.status :=
  C5_last_record_cumulative (by decide) c5_run

/-- Inputs with an empty fleet: nothing can be loaded and the whole request
remains unallocated. -/
def c6_items : List Item := [⟨"I1", 1, "solid"⟩]

/-- **C6 counterexample**: two inputs with insufficient (here: empty) fleet
capacity and different positive unallocated remainders (5 and 7) make
`select_vehicle` return the very same value — the list of records — so the
function does not return the remaining unfulfilled item count alongside the
records; the remainder is only signalled by the printed warning. -/
theorem C6_counterexample :
    select_vehicle 5 5 [⟨"I1", 5⟩] [] c6_items =
      select_vehicle 7 7 [⟨"I1", 7⟩] [] c6_items ∧
    (∃ r, selectVehicleRun 5 5 [⟨"I1", 5⟩] [] c6_items = .ok r ∧
      r.remainingItems = 5 ∧ r.updates = [] ∧ r.warning = true) ∧
    (∃ r, selectVehicleRun 7 7 [⟨"I1", 7⟩] [] c6_items = .ok r ∧
      r.remainingItems = 7 ∧ r.updates = [] ∧ r.warning = true) :=
  ⟨rfl,
   ⟨⟨[], [], [], 5, 5, [⟨"I1", 5⟩], true⟩, rfl, rfl, rfl, rfl⟩,
   ⟨⟨[], [], [], 7, 7, [⟨"I1", 7⟩], true⟩, rfl, rfl, rfl, rfl⟩⟩

/-- **C6 (amended)**: when every request line resolves to an item of
strictly positive unit weight, the allocator neither raises nor retries: it
returns normally with the list of allocation records as its only return
value, and the insufficient-capacity condition is reported by the printed
warning, which fires exactly when the unallocated remainder is positive. -/
theorem C6_warning_not_return {totalWeight : ℚ} {itemCount : ℤ}
    {lines : List Line} {vehicles : List VehicleData} {items : List Item}
    (hpos : ∀ l ∈ lines, ∀ it ∈ items, it.id = l.itemId → 0 < it.weight) :
    ∃ r, selectVehicleRun totalWeight itemCount lines vehicles items = .ok r ∧
      select_vehicle totalWeight itemCount lines vehicles items = .ok r.updates ∧
      (r.warning = true ↔ 0 < r.remainingItems) := by
  obtain ⟨out, hout⟩ :=
    @processVehicles_total items (sortVehicles vehicles) totalWeight itemCount
      lines (linesPos_of_forall hpos)
  obtain ⟨rw, ri, ls, vs, us, asg⟩ := out
  have hrun : selectVehicleRun totalWeight itemCount lines vehicles items =
      .ok ⟨us, asg, vs, rw, ri, ls, decide (0 < ri)⟩ := by
    unfold selectVehicleRun
    rw [hout]
  refine ⟨_, hrun, ?_, ?_⟩
  · unfold select_vehicle
    rw [hrun]
    rfl
  · exact decide_eq_true_iff

/-- **C6 witness**: the amended statement on Scenario A's inputs. -/
theorem C6_warning_not_return_witness :
    ∃ r, selectVehicleRun 6 3 scnA_lines scnA_fleet scnA_items = .ok r ∧
      select_vehicle 6 3 scnA_lines scnA_fleet scnA_items = .ok r.updates ∧
      (r.warning = true ↔ 0 < r.remainingItems) :=
  C6_warning_not_return (by norm_num [scnA_lines, scnA_items])

/-- **C7**: a request line whose item id does not resolve in the catalog is
skipped silently: no error is raised and the whole run — records,
assignments, vehicle rows, counters, and the other lines' final quantities —
is identical to the run without that line, the line itself surviving
unchanged in place. -/
theorem C7_unresolvable_line_inert {totalWeight : ℚ} {itemCount : ℤ}
    {l1 l2 : List Line} {bad : Line} {vehicles : List VehicleData}
    {items : List Item}
    (hbad : findItem items bad.itemId = none) :
    selectVehicleRun totalWeight itemCount (l1 ++ bad :: l2) vehicles items =
      (selectVehicleRun totalWeight itemCount (l1 ++ l2) vehicles items).map
        (fun r => { r with finalLines :=
          r.finalLines.take l1.length ++ bad :: r.finalLines.drop l1.length }) := by
  have hn : l1.length ≤ (l1 ++ l2).length := by simp
  have hsk := @processVehicles_skipline items bad hbad (sortVehicles vehicles)
    totalWeight itemCount (l1 ++ l2) l1.length hn
  rw [List.take_left, List.drop_left] at hsk
  unfold selectVehicleRun
  rw [hsk]
  cases hpv : processVehicles items totalWeight itemCount (l1 ++ l2)
      (sortVehicles vehicles) with
  | error e => rfl
  | ok out =>
    obtain ⟨rw, ri, ls, vs, us, asg⟩ := out
    rfl

/-- **C7 witness**: inserting a line with unknown item id `IX` between the
resolvable lines of the two-line / one-truck input changes nothing but the
position of the inert line. -/
theorem C7_unresolvable_line_inert_witness :
    selectVehicleRun 2 2 ([⟨"I1", 1⟩] ++ (⟨"IX", 4⟩ : Line) :: [⟨"I2", 1⟩])
        c5_fleet c5_items =
      (selectVehicleRun 2 2 ([⟨"I1", 1⟩] ++ [⟨"I2", 1⟩]) c5_fleet c5_items).map
        (fun r => { r with finalLines :=
          r.finalLines.take 1 ++ (⟨"IX", 4⟩ : Line) :: r.finalLines.drop 1 }) :=
  C7_unresolvable_line_inert (by rfl)

/-- **C10**: the allocation is total when every catalog item matching a
request line has strictly positive unit weight — under that precondition
the weight-bounded division is always well-defined and the run returns
normally for every fleet — while an input whose referenced item has unit
weight 0 makes the run fail with the division-by-zero error. -/
theorem C10_zero_weight_division :
    (∀ (items : List Item) (totalWeight : ℚ) (itemCount : ℤ)
        (lines : List Line) (vehicles : List VehicleData),
      (∀ l ∈ lines, ∀ it ∈ items, it.id = l.itemId → 0 < it.weight) →
      ∃ r, selectVehicleRun totalWeight itemCount lines vehicles items = .ok r) ∧
    selectVehicleRun 0 1 [⟨"I1", 1⟩]
        [⟨"V1", "Truck", 100, 100, 100, 100, "free"⟩] [⟨"I1", 0, "solid"⟩] =
      .error "ZeroDivisionError" := by
  constructor
  · intro items totalWeight itemCount lines vehicles hpos
    obtain ⟨out, hout⟩ := @processVehicles_total items (sortVehicles vehicles)
      totalWeight itemCount lines (linesPos_of_forall hpos)
    obtain ⟨rw, ri, ls, vs, us, asg⟩ := out
    exact ⟨⟨us, asg, vs, rw, ri, ls, decide (0 < ri)⟩,
      by unfold selectVehicleRun; rw [hout]⟩
  · norm_num [selectVehicleRun, processVehicles, processLines, processLine,
      findItem, loadableItems, pytrunc, sortVehicles, List.insertionSort,
      List.orderedInsert, vehicleKeyLE, applyPass, List.find?]
    simp

/-- **C10 witness**: the totality half applied to a small input satisfying
the positive-weight precondition. -/
theorem C10_zero_weight_division_witness :
    ∃ r, selectVehicleRun 1 1 [⟨"I1", 1⟩] [] [⟨"I1", 1, "solid"⟩] = .ok r :=
  C10_zero_weight_division.1 [⟨"I1", 1, "solid"⟩] 1 1 [⟨"I1", 1⟩] []
    (by norm_num)

/-- **C1**: for a request line processed against a vehicle — the item
resolves, the fragile/two-wheeled exclusion does not apply, the unit weight
is strictly positive, and line quantity, running counters and remaining
capacities are nonnegative — the number of units assigned (the decrement of
the line's quantity, equal to the decrement of the running item counter) is
exactly `min(line.quantity, remainingOrderItemCount,
vehicleRemainingItemCapacity, ⌊min(remainingOrderWeight,
vehicleRemainingWeightCapacity) / itemUnitWeight⌋)`, where the floor
agrees with Python's truncating `int()` on these nonnegative values. -/
theorem C1_loadable_formula {items : List Item} {v : VehicleData}
    {st : PassState} {l : Line} {it : Item}
    (hf : findItem items l.itemId = some it)
    (hexc : ¬(v.vtype = "Bike" ∧ it.itemType = "fragile"))
    (hw : 0 < it.weight) (hq : 0 ≤ l.qty) (hri : 0 ≤ st.ri) (hric : 0 ≤ st.ric)
    (hrw : 0 ≤ st.rw) (hrwc : 0 ≤ st.rwc) :
    ∃ st2 l2 us asg, processLine items v st l = .ok (st2, l2, us, asg) ∧
      l.qty - l2.qty =
        min l.qty (min st.ri (min st.ric ⌊min st.rw st.rwc / it.weight⌋)) ∧
      st.ri - st2.ri =
        min l.qty (min st.ri (min st.ric ⌊min st.rw st.rwc / it.weight⌋)) := by
  have hq0 : 0 ≤ min st.rw st.rwc / it.weight :=
    div_nonneg (le_min hrw hrwc) hw.le
  have hmin : loadableItems st l.qty it.weight =
      min l.qty (min st.ri (min st.ric ⌊min st.rw st.rwc / it.weight⌋)) := by
    unfold loadableItems
    rw [pytrunc_eq_floor hq0, min_assoc st.ri st.ric]
  by_cases hn : 0 < loadableItems st l.qty it.weight
  · have hstep : processLine items v st l = .ok
        (⟨st.rw - (loadableItems st l.qty it.weight : ℚ) * it.weight,
          st.ri - loadableItems st l.qty it.weight,
          st.rwc - (loadableItems st l.qty it.weight : ℚ) * it.weight,
          st.ric - loadableItems st l.qty it.weight⟩,
         ⟨l.itemId, l.qty - loadableItems st l.qty it.weight⟩,
         [⟨v.vid, v.vtype, "in_use",
           st.rwc - (loadableItems st l.qty it.weight : ℚ) * it.weight,
           st.ric - loadableItems st l.qty it.weight⟩],
         [⟨v.vid, v.vtype, l.itemId, it.itemType,
           loadableItems st l.qty it.weight, it.weight⟩]) := by
      simp only [processLine, hf, if_neg hexc, if_neg hw.ne', if_pos hn]
    exact ⟨_, _, _, _, hstep,
      by rw [← hmin]; exact sub_sub_cancel _ _,
      by rw [← hmin]; exact sub_sub_cancel _ _⟩
  · have hge : 0 ≤ loadableItems st l.qty it.weight := by
      rw [hmin]
      exact le_min hq (le_min hri (le_min hric (Int.floor_nonneg.mpr hq0)))
    have heq0 : loadableItems st l.qty it.weight = 0 :=
      le_antisymm (not_lt.mp hn) hge
    have hstep : processLine items v st l = .ok (st, l, [], []) := by
      simp only [processLine, hf, if_neg hexc, if_neg hw.ne', if_neg hn]
    exact ⟨st, l, [], [], hstep,
      by rw [← hmin, heq0, sub_self], by rw [← hmin, heq0, sub_self]⟩

/-- **C1 witness**: three units of a 2 kg item against a truck with
remaining capacities 10 kg / 5 items and running counters 10 kg / 5 items:
all three units are assigned. -/
theorem C1_loadable_formula_witness :
    ∃ st2 l2 us asg,
      processLine [⟨"I1", 2, "solid"⟩]
        ⟨"V1", "Truck", 100, 100, 100, 100, "free"⟩
        ⟨10, 5, 10, 5⟩ ⟨"I1", 3⟩ = .ok (st2, l2, us, asg) ∧
      (3 : ℤ) - l2.qty = min 3 (min 5 (min 5 ⌊min (10 : ℚ) 10 / 2⌋)) ∧
      (5 : ℤ) - st2.ri = min 3 (min 5 (min 5 ⌊min (10 : ℚ) 10 / 2⌋)) :=
  @C1_loadable_formula [⟨"I1", 2, "solid"⟩]
    ⟨"V1", "Truck", 100, 100, 100, 100, "free"⟩
    ⟨10, 5, 10, 5⟩ ⟨"I1", 3⟩ ⟨"I1", 2, "solid"⟩
    (by rfl) (by decide) (by norm_num) (by decide)
    (by decide) (by decide) (by norm_num) (by norm_num)

end DLS
